import Mathlib

/-!
Shallow embedding of the Polarion license manager
(`src/polarion_license_manager.py`): the configuration parser,
the per-user license table, the mutation engine (add / remove / switch),
the serializer, the query API and the mixed-identifier classifier.

Strings are modelled as `List Char` (`Str`); Python dicts as ordered
association lists; machine state (`PolarionLicenseManager`) as an explicit
`MState` record threaded through the operations.
-/

set_option maxRecDepth 20000

namespace Polarion

abbrev Str := List Char

/-- ASCII whitespace as stripped by Python `str.strip()`
(space, tab, newline, carriage return, vertical tab, form feed). -/
def isSpaceChar (c : Char) : Bool :=
  c.toNat = 32 || c.toNat = 9 || c.toNat = 10 || c.toNat = 13 ||
    c.toNat = 11 || c.toNat = 12

/-- decimal digit -/
def isDigitChar (c : Char) : Bool :=
  48 ≤ c.toNat && c.toNat ≤ 57

/-- ASCII alphanumeric -/
def isAlphaNumChar (c : Char) : Bool :=
  (97 ≤ c.toNat && c.toNat ≤ 122) || (65 ≤ c.toNat && c.toNat ≤ 90) ||
    (48 ≤ c.toNat && c.toNat ≤ 57)

/-- regex `\w` (ASCII fragment, which is all the repository's data uses) -/
def isWordChar (c : Char) : Bool :=
  isAlphaNumChar c || c = '_'

/-- Python `str.lstrip()` -/
def lstripWs (s : Str) : Str := s.dropWhile isSpaceChar

/-- Python `str.strip()` -/
def strip (s : Str) : Str := (lstripWs ((lstripWs s.reverse).reverse))

/-- Python `str.lstrip('#')` -/
def lstripHash (s : Str) : Str := s.dropWhile (fun c => c = '#')

/-- ASCII lower-casing of one character (Python `str.lower()` on the
repository's ASCII data) -/
def lowerChar (c : Char) : Char :=
  if 65 ≤ c.toNat && c.toNat ≤ 90 then Char.ofNat (c.toNat + 32) else c

def strLower (s : Str) : Str := s.map lowerChar

/-- ASCII upper-casing of one character (Python `str.upper()`) -/
def upperChar (c : Char) : Char :=
  if 97 ≤ c.toNat && c.toNat ≤ 122 then Char.ofNat (c.toNat - 32) else c

def strUpper (s : Str) : Str := s.map upperChar

/-- substring test, Python `needle in hay` -/
def containsSub (needle : Str) : Str → Bool
  | [] => needle.isEmpty
  | c :: rest => needle.isPrefixOf (c :: rest) || containsSub needle rest

/-- split a string at every occurrence of `sep` (Python `str.split(sep)`) -/
def splitOnChar (sep : Char) : Str → List Str
  | [] => [[]]
  | c :: rest =>
    match splitOnChar sep rest with
    | [] => [[c]]
    | h :: t => if c = sep then [] :: h :: t else (c :: h) :: t

/-- Python `str.split()` with no argument: whitespace-delimited tokens,
empty tokens dropped. -/
def splitWs (s : Str) : List Str :=
  ((splitOnChar ' ' (s.map (fun c => if isSpaceChar c then ' ' else c))).filter
    (fun t => !t.isEmpty))

/-- Python `sep.join(ls)` -/
def joinWith (sep : Str) : List Str → Str
  | [] => []
  | [a] => a
  | a :: b :: t => a ++ sep ++ joinWith sep (b :: t)

def joinLines (ls : List Str) : Str := joinWith ['\n'] ls

def splitLines (s : Str) : List Str := splitOnChar '\n' s

/-- worker for `replaceAll`; the fuel argument only drives structural
termination and is always at least the string's length at the call site,
so the `0` case is unreachable. -/
def replaceAllGo (pat repl : Str) : Nat → Str → Str
  | _, [] => []
  | 0, s => s
  | fuel + 1, c :: rest =>
    if pat ≠ [] && pat.isPrefixOf (c :: rest) then
      repl ++ replaceAllGo pat repl fuel ((c :: rest).drop pat.length)
    else
      c :: replaceAllGo pat repl fuel rest

/-- Python `str.replace(pat, repl)` (all occurrences, left to right). -/
def replaceAll (pat repl : Str) (s : Str) : Str :=
  replaceAllGo pat repl s.length s

/-- decimal digit character for `n < 10` -/
def digitChar (n : Nat) : Char :=
  match n with
  | 0 => '0' | 1 => '1' | 2 => '2' | 3 => '3' | 4 => '4'
  | 5 => '5' | 6 => '6' | 7 => '7' | 8 => '8' | 9 => '9'
  | _ => '*'

/-- worker for `natToChars`; fuel-driven structural recursion, the fuel at
the call site is at least the number of decimal digits. -/
def natToCharsGo : Nat → Nat → Str
  | 0, n => [digitChar n]
  | fuel + 1, n =>
    if n < 10 then [digitChar n]
    else natToCharsGo fuel (n / 10) ++ [digitChar (n % 10)]

/-- decimal rendering of a natural number, Python `str(n)` -/
def natToChars (n : Nat) : Str :=
  natToCharsGo n n

/-- decimal reading of a digit string, Python `int(s)` on the regex's
`(\d+)` group -/
def charsToNat (s : Str) : Nat :=
  s.foldl (fun a c => a * 10 + (c.toNat - 48)) 0

/-! ## Data model (`User`, `LicenseEntry`, `LicenseChange` dataclasses) -/

structure User where
  user_id : Str
  full_name : Str
  email : Str
deriving DecidableEq, Repr

structure LicenseEntry where
  license_type : Str
  assignment_type : Str
  index : Nat
  user_id : Str
  line_number : Nat
  is_active : Bool
deriving DecidableEq, Repr

structure LicenseChange where
  user_id : Str
  user_name : Str
  action : Str
  old_license : Option Str
  new_license : Option Str
  line_added : Option Str
  line_removed : Option Str
deriving DecidableEq, Repr

/-- `PolarionLicenseManager`'s mutable session state: the user directory
(`self.users`, a dict keyed by lower-cased user id, modelled as an ordered
association list), the entry list, the raw configuration text and the
change log.  The database handle is out of scope. -/
structure MState where
  users : List (Str × User)
  license_entries : List LicenseEntry
  license_config_text : Str
  changes : List LicenseChange
deriving DecidableEq, Repr

/-- ordered-dict lookup, Python `d.get(k)` / `k in d` -/
def dGet {κ α : Type} [BEq κ] (d : List (κ × α)) (k : κ) : Option α :=
  (d.find? (fun p => p.1 == k)).map (fun p => p.2)

/-- ordered-dict store, Python `d[k] = v`: replaces in place if the key is
present, otherwise appends the new key at the end (insertion order). -/
def dSet {κ α : Type} [BEq κ] : List (κ × α) → κ → α → List (κ × α)
  | [], k, v => [(k, v)]
  | (k', v') :: rest, k, v =>
    if k' == k then (k', v) :: rest else (k', v') :: dSet rest k v

/-- `self.license_categories` (a dict in the source; iteration order is its
insertion order ALM, QA, Requirements, Pro, Reviewer) -/
def licenseCategories : List Str :=
  ["ALM".toList, "QA".toList, "Requirements".toList, "Pro".toList,
   "Reviewer".toList]

/-! ## Configuration parser (`parse_license_configuration`) -/

def sectionHeaderMarker : Str := "# ------------------------------- POLARION".toList

def namedHeader : Str := "# NAMED USERS:".toList

def concurrentHeader : Str := "# CONCURRENT USERS:".toList

/-- `re.match(r'(\w+User)(\d+)=(.+)', line)`: the segment before the first
`=` must consist of word characters and decompose as `\w+` ++ `User` ++
digits (the digits being the maximal digit suffix, by greediness), and at
least one character must follow the `=`.  Returns
(group 1 `\w+User`, group 2 as an integer, group 3). -/
def matchAssign (line : Str) : Option (Str × Nat × Str) :=
  let key := line.takeWhile (fun c => c ≠ '=')
  match line.drop key.length with
  | '=' :: value =>
    if value = [] then none
    else if key.all isWordChar then
      let d := (key.reverse.takeWhile isDigitChar).reverse
      if d = [] then none
      else
        let kw := key.take (key.length - d.length)
        if "User".toList.isSuffixOf kw then
          if kw.length - 4 = 0 then none
          else some (kw, charsToNat d, value)
        else none
    else none
  | _ => none

/-- loop state of `parse_license_configuration`: section context, subsection
context, the `category_part` local (which, by Python `locals()` scoping,
leaks from one loop iteration to the next), and the accumulated entries. -/
structure ParseState where
  currentCategory : Option Str
  currentAssignmentType : Option Str
  categoryPart : Option Str
  entries : List LicenseEntry
deriving DecidableEq, Repr

def initParseState : ParseState := ⟨none, none, none, []⟩

/-- the parser's handling of one matched assignment line: derive the
assignment type and license category from the prefix, with the
`category_part` route, the substring-inference route and the section
context as fallbacks for the category (the assignment-type context
fallback in the source is dead code: the `else` branch has already
defaulted to Concurrent). -/
def classifyAssign (st : ParseState) (lineNum : Nat) (pfx : Str) (idx : Nat)
    (value : Str) (isActive : Bool) : ParseState :=
  if strip value = [] then st
  else
    let pl := strLower pfx
    let lc0 : Option Str :=
      if "concurrent".toList.isPrefixOf pl then none
      else if "named".toList.isPrefixOf pl then none
      else licenseCategories.find? (fun c => containsSub (strLower c) pl)
    let at0 : Str :=
      if "concurrent".toList.isPrefixOf pl then "Concurrent".toList
      else if "named".toList.isPrefixOf pl then "Named".toList
      else "Concurrent".toList
    let cp0 : Option Str :=
      if "concurrent".toList.isPrefixOf pl then some (pfx.drop 10)
      else if "named".toList.isPrefixOf pl then some (pfx.drop 5)
      else st.categoryPart
    -- `if not license_category: if 'category_part' in locals(): ...`
    let lccp : Option Str × Option Str :=
      match lc0 with
      | some c => (some c, cp0)
      | none =>
        match cp0 with
        | some cp =>
          let cp' := replaceAll "User".toList [] cp
          (licenseCategories.find? (fun c => strLower c == strLower cp'),
           some cp')
        | none => (none, none)
    -- `if not license_category: `substring inference from the prefix
    let lc2 : Option Str :=
      match lccp.1 with
      | some c => some c
      | none => licenseCategories.find? (fun c => containsSub (strLower c) pl)
    -- section-context fallback
    let lc3 : Option Str :=
      match lc2 with
      | some c => some c
      | none => st.currentCategory
    match lc3 with
    | some lc =>
      { st with categoryPart := lccp.2,
                entries := st.entries ++
                  [⟨lc, at0, idx, strip value, lineNum, isActive⟩] }
    | none => { st with categoryPart := lccp.2 }

/-- one iteration of the parser's line loop -/
def parseLine (st : ParseState) (lineNum : Nat) (rawLine : Str) : ParseState :=
  let line := strip rawLine
  if line = [] then st
  else if sectionHeaderMarker.isPrefixOf line then
    { st with currentCategory :=
        match licenseCategories.find? (fun c => containsSub c line) with
        | some c => some c
        | none => st.currentCategory }
  else if namedHeader.isPrefixOf line then
    { st with currentAssignmentType := some "Named".toList }
  else if concurrentHeader.isPrefixOf line then
    { st with currentAssignmentType := some "Concurrent".toList }
  else if line.contains '=' then
    let isActive := !(['#'].isPrefixOf line)
    let line2 := if isActive then line else strip (line.drop 1)
    match matchAssign line2 with
    | none => st
    | some (pfx, idx, value) => classifyAssign st lineNum pfx idx value isActive
  else st

/-- `parse_license_configuration`: fold the line loop over the split text,
line numbers starting at 1.  (The source also stores the text and returns
`True`; callers thread the text through `MState` separately.) -/
def parseLicenseConfiguration (text : Str) : List LicenseEntry :=
  ((splitLines text).foldl
    (fun (p : ParseState × Nat) l => (parseLine p.1 p.2 l, p.2 + 1))
    (initParseState, 1)).1.entries

/-! ## License table builder (`build_combined_user_license_table`) -/

/-- processing of one entry while building the table: active entries are
appended under their lower-cased user id when that key exists, otherwise
stored as a singleton under the literal (non-normalized) user id. -/
def buildStep (tbl : List (Str × List LicenseEntry)) (e : LicenseEntry) :
    List (Str × List LicenseEntry) :=
  if e.is_active then
    let kl := strLower e.user_id
    match dGet tbl kl with
    | some l => dSet tbl kl (l ++ [e])
    | none => dSet tbl e.user_id [e]
  else tbl

/-- one list per directory user, then each active entry added by
`buildStep`. -/
def buildCombinedUserLicenseTable (users : List (Str × User))
    (entries : List LicenseEntry) : List (Str × List LicenseEntry) :=
  entries.foldl buildStep
    (users.map (fun p => (p.1, ([] : List LicenseEntry))))

/-! ## Mutation engine (`find_available_slot`, `add_user_license`,
`remove_user_license`, `switch_user_license`) -/

def findAvailableSlot (entries : List LicenseEntry) (lt at_ : Str) : Nat :=
  let idxs := (entries.filter
    (fun e => e.license_type == lt && e.assignment_type == at_ &&
      e.is_active)).map (fun e => e.index)
  if idxs.isEmpty then 1 else idxs.foldl max 0 + 1

/-- rendered assignment line
`f"{assignment_type.lower()}{license_type}User{index}={user_id}"` -/
def renderLine (at_ lt : Str) (i : Nat) (uid : Str) : Str :=
  strLower at_ ++ lt ++ "User".toList ++ natToChars i ++ '=' :: uid

/-- `add_user_license`: returns the success flag and the updated state. -/
def addUserLicense (st : MState) (user : User) (lt at_ : Str) :
    Bool × MState :=
  let tbl := buildCombinedUserLicenseTable st.users st.license_entries
  let existing := (dGet tbl (strLower user.user_id)).getD []
  if existing ≠ [] then (false, st)
  else
    let newIndex := findAvailableSlot st.license_entries lt at_
    let e : LicenseEntry := ⟨lt, at_, newIndex, user.user_id, 0, true⟩
    let ch : LicenseChange :=
      ⟨user.user_id, user.full_name, "add".toList, none,
       some (at_ ++ ' ' :: lt), some (renderLine at_ lt newIndex user.user_id),
       none⟩
    (true, { st with license_entries := st.license_entries ++ [e],
                     changes := st.changes ++ [ch] })

/-- the match condition of `remove_user_license`: case-insensitive user
id, exact license type and assignment type, active -/
def removePred (uid lt at_ : Str) (e : LicenseEntry) : Bool :=
  strLower e.user_id == strLower uid && e.license_type == lt &&
    e.assignment_type == at_ && e.is_active

/-- scan for the first active entry matching the (case-insensitive user id,
license type, assignment type) triple; flip its `is_active` in place and
also return the entry found. -/
def removeFirstMatch (uid lt at_ : Str) :
    List LicenseEntry → Option (List LicenseEntry × LicenseEntry)
  | [] => none
  | e :: rest =>
    if removePred uid lt at_ e then
      some ({ e with is_active := false } :: rest, e)
    else
      (removeFirstMatch uid lt at_ rest).map (fun p => (e :: p.1, p.2))

/-- `remove_user_license` -/
def removeUserLicense (st : MState) (uid lt at_ : Str) : Bool × MState :=
  match removeFirstMatch uid lt at_ st.license_entries with
  | none => (false, st)
  | some (entries', e) =>
    let userName :=
      match dGet st.users (strLower uid) with
      | some u => u.full_name
      | none => uid
    let ch : LicenseChange :=
      ⟨uid, userName, "remove".toList, some (at_ ++ ' ' :: lt), none, none,
       some (renderLine at_ lt e.index uid)⟩
    (true, { st with license_entries := entries',
                     changes := st.changes ++ [ch] })

/-- `switch_user_license`: remove then add; on double success the last two
change records are relabelled `switch`.  (The source's `self.changes[-2]`
would fault on a log of length one, but after two successful appends the
log always has length at least two.) -/
def switchUserLicense (st : MState) (user : User)
    (oldLt oldAt newLt newAt : Str) : Bool × MState :=
  match removeUserLicense st user.user_id oldLt oldAt with
  | (false, st1) => (false, st1)
  | (true, st1) =>
    match addUserLicense st1 user newLt newAt with
    | (false, st2) => (false, st2)
    | (true, st2) =>
      if st2.changes.isEmpty then (true, st2)
      else
        let n := st2.changes.length
        (true, { st2 with changes :=
          st2.changes.take (n - 2) ++
            ((st2.changes.drop (n - 2)).map
              (fun c => { c with action := "switch".toList })) })

/-! ## Serializer (`update_license_config_text`) -/

/-- stable insert for the serializer's `sorted(...)` (Python's sort is
stable; a new element goes before the first strictly-or-equally later one
it compares `le` to). -/
def stableInsert {α : Type} (le : α → α → Bool) (a : α) : List α → List α
  | [] => [a]
  | b :: l => if le a b then a :: b :: l else b :: stableInsert le a l

def stableSort {α : Type} (le : α → α → Bool) : List α → List α
  | [] => []
  | a :: l => stableInsert le a (stableSort le l)

/-- Python string `<` (lexicographic on code points) -/
def strLtB : Str → Str → Bool
  | [], [] => false
  | [], _ :: _ => true
  | _ :: _, [] => false
  | a :: s, b :: t => if a = b then strLtB s t else decide (a.toNat < b.toNat)

/-- the sort key `(license_type, assignment_type, index)` compared as a
Python tuple -/
def entryLe (e1 e2 : LicenseEntry) : Bool :=
  strLtB e1.license_type e2.license_type ||
    (e1.license_type == e2.license_type &&
      (strLtB e1.assignment_type e2.assignment_type ||
        (e1.assignment_type == e2.assignment_type &&
          decide (e1.index ≤ e2.index))))

def sectionDashes : Str := "# -------------------------------".toList

/-- one line of the serializer's first pass -/
def rebuildStep (acc : List Str × Option Str × Option Str) (line : Str) :
    List Str × Option Str × Option Str :=
  let ls := strip line
  if sectionHeaderMarker.isPrefixOf ls then
    (acc.1 ++ [line],
     (match licenseCategories.find? (fun c => containsSub c line) with
      | some c => some c
      | none => acc.2.1),
     acc.2.2)
  else if namedHeader.isPrefixOf ls then
    (acc.1 ++ [line], acc.2.1, some "Named".toList)
  else if concurrentHeader.isPrefixOf ls then
    (acc.1 ++ [line], acc.2.1, some "Concurrent".toList)
  else if acc.2.1.isSome && acc.2.2.isSome && ls.contains '=' &&
      (matchAssign (lstripHash ls)).isSome then
    (acc.1, acc.2.1, acc.2.2)
  else (acc.1 ++ [line], acc.2.1, acc.2.2)

/-- first pass of the serializer: copy every line, tracking section and
subsection context, but drop recognized assignment lines once both
contexts are known. -/
def rebuildLines (lines : List Str) : List Str :=
  (lines.foldl rebuildStep ([], none, none)).1

/-- the serializer's section scan: remember the last line containing
`POLARION {category}`, stopping at the first subsequent
`# -------------------------------` line. -/
def findSectionGo (pat : Str) : List Str → Nat → Option Nat → Option Nat
  | [], _, ss => ss
  | l :: rest, i, ss =>
    if containsSub pat l then findSectionGo pat rest (i + 1) (some i)
    else if ss.isSome && sectionDashes.isPrefixOf l then ss
    else findSectionGo pat rest (i + 1) ss

def findSection (cat : Str) (nls : List Str) : Option Nat :=
  findSectionGo ("POLARION ".toList ++ cat) nls 0 none

/-- the serializer's subsection scan from the section start: one past the
first line containing `# {MODE} USERS:`. -/
def findSubsection (at_ : Str) (nls : List Str) (start : Nat) : Option Nat :=
  match (nls.drop start).findIdx?
      (fun l => containsSub ("# ".toList ++ strUpper at_ ++ " USERS:".toList) l) with
  | some j => some (start + j + 1)
  | none => none

/-- Python `list.insert(i, x)` -/
def insertAt {α : Type} (l : List α) (i : Nat) (x : α) : List α :=
  l.take i ++ x :: l.drop i

/-- rendering of one entry during re-insertion: active entries as plain
assignment lines, inactive ones commented and annotated `(removed)`. -/
def renderEntryLine (at_ cat : Str) (e : LicenseEntry) : Str :=
  if e.is_active then renderLine at_ cat e.index e.user_id
  else "# ".toList ++ renderLine at_ cat e.index e.user_id ++
    " (removed)".toList

/-- grouping by `(license_type, assignment_type)` in first-seen order -/
def groupStep (g : List ((Str × Str) × List LicenseEntry))
    (e : LicenseEntry) : List ((Str × Str) × List LicenseEntry) :=
  let k := (e.license_type, e.assignment_type)
  match dGet g k with
  | some l => dSet g k (l ++ [e])
  | none => dSet g k [e]

/-- sequential insertion of one rendered entry -/
def insStep (at_ cat : Str) (p : List Str × Nat) (e : LicenseEntry) :
    List Str × Nat :=
  (insertAt p.1 p.2 (renderEntryLine at_ cat e), p.2 + 1)

/-- re-insertion of one `(category, assignment_type)` group into the
rebuilt lines -/
def insertGroup (nls : List Str) :
    (Str × Str) × List LicenseEntry → List Str
  | ((cat, at_), es) =>
    match findSection cat nls with
    | none => nls
    | some ss =>
      match findSubsection at_ nls ss with
      | none => nls
      | some sub0 => (es.foldl (insStep at_ cat) (nls, sub0)).1

/-- `update_license_config_text` -/
def updateLicenseConfigText (st : MState) : Str :=
  let lines := splitLines st.license_config_text
  let sortedEntries := stableSort entryLe st.license_entries
  let grouped := sortedEntries.foldl groupStep []
  let newLines := rebuildLines lines
  joinLines (grouped.foldl insertGroup newLines)

/-! ## Queries (`find_user_by_identifier`, `query_user_licenses`,
`find_inactive_users_with_licenses`) -/

/-- `find_user_by_identifier`: direct id key, then exact email, then exact
full name (all case-insensitive), then a partial match accepted only when
unique. -/
def findUserByIdentifier (users : List (Str × User)) (identifier : Str) :
    Option User :=
  let idf := strLower (strip identifier)
  match dGet users idf with
  | some u => some u
  | none =>
    match (users.map (fun p => p.2)).find?
        (fun u => strLower u.email == idf) with
    | some u => some u
    | none =>
      match (users.map (fun p => p.2)).find?
          (fun u => strLower u.full_name == idf) with
      | some u => some u
      | none =>
        match (users.map (fun p => p.2)).filter
            (fun u => containsSub idf (strLower u.full_name) ||
              containsSub idf (strLower u.user_id)) with
        | [u] => some u
        | _ => none

/-- one `query_user_licenses` result row.  The source returns a dict per
identifier; the fields the claims depend on are the identifier, the
`status` string and the rendered `licenses` list (the human-readable
message strings and the aggregate statistics derive from the same data and
are omitted here). -/
structure QueryResult where
  identifier : Str
  status : Str
  licenses : List Str
deriving DecidableEq, Repr

/-- `query_user_licenses` -/
def queryUserLicenses (users : List (Str × User))
    (entries : List LicenseEntry) (identifiers : List Str) :
    List QueryResult :=
  let tbl := buildCombinedUserLicenseTable users entries
  identifiers.map (fun idf =>
    match findUserByIdentifier users idf with
    | none => ⟨idf, "not_found".toList, []⟩
    | some u =>
      let ues := (dGet tbl (strLower u.user_id)).getD []
      if ues.isEmpty then ⟨idf, "no_license".toList, []⟩
      else
        let info := (ues.filter (fun e => e.is_active)).map
          (fun e => renderLine e.assignment_type e.license_type e.index
            e.user_id)
        if !info.isEmpty then ⟨idf, "has_license".toList, info⟩
        else ⟨idf, "no_active_license".toList, []⟩)

/-- `find_inactive_users_with_licenses`: active entries whose lower-cased
user id is not a directory key -/
def findInactiveUsersWithLicenses (users : List (Str × User))
    (entries : List LicenseEntry) : List LicenseEntry :=
  entries.filter
    (fun e => e.is_active && (dGet users (strLower e.user_id)).isNone)

/-! ## Identifier normalizer (`parse_mixed_identifiers`,
`find_users_by_mixed_identifiers`) -/

/-- result of `parse_mixed_identifiers`: the `user_ids`, `full_names` and
`emails` lists of the returned dict. -/
structure MixedIds where
  user_ids : List Str
  full_names : List Str
  emails : List Str
deriving DecidableEq, Repr

/-- classification of one stripped token -/
def mixedStep (acc : MixedIds) (idf : Str) : MixedIds :=
  if idf.contains ' ' && idf.contains '@' then
    let parts := splitWs idf
    let potentialEmails :=
      parts.filter (fun p => p.contains '@' && p.contains '.')
    let potentialNames := parts.filter (fun p => !p.contains '@')
    if !potentialEmails.isEmpty && !potentialNames.isEmpty then
      let name := joinWith [' '] potentialNames
      { acc with emails := acc.emails ++ potentialEmails,
                 full_names :=
                   if strip name ≠ [] then acc.full_names ++ [strip name]
                   else acc.full_names }
    else if idf.contains '@' && idf.contains '.' then
      { acc with emails := acc.emails ++ [idf] }
    else { acc with full_names := acc.full_names ++ [idf] }
  else if idf.contains '@' && idf.contains '.' then
    { acc with emails := acc.emails ++ [idf] }
  else if !idf.contains ' ' &&
      (let r := idf.filter (fun c => c ≠ '.' && c ≠ '_' && c ≠ '-')
       !r.isEmpty && r.all isAlphaNumChar) then
    { acc with user_ids := acc.user_ids ++ [idf] }
  else { acc with full_names := acc.full_names ++ [idf] }

/-- `parse_mixed_identifiers`: normalize `;` to `,`, split, strip, drop
empties, then classify each token. -/
def parseMixedIdentifiers (input : Str) : MixedIds :=
  (((splitOnChar ','
      (input.map (fun c => if c = ';' then ',' else c))).map
    strip).filter (fun t => t ≠ [])).foldl mixedStep ⟨[], [], []⟩

/-- resolution of one identifier against the directory, skipping
identifier strings already processed -/
def resolveStep (users : List (Str × User)) (acc : List User × List Str)
    (idf : Str) : List User × List Str :=
  if idf ∈ acc.2 then acc
  else
    match findUserByIdentifier users idf with
    | some u => (acc.1 ++ [u], acc.2 ++ [idf])
    | none => acc

/-- `find_users_by_mixed_identifiers`: resolve the classified identifiers
against the directory — user ids first, then emails, then names. -/
def findUsersByMixedIdentifiers (users : List (Str × User)) (input : Str) :
    List User :=
  ((parseMixedIdentifiers input).full_names.foldl (resolveStep users)
    ((parseMixedIdentifiers input).emails.foldl (resolveStep users)
      ((parseMixedIdentifiers input).user_ids.foldl (resolveStep users)
        ([], [])))).1

/-! ## Generic lemmas about the string and character helpers -/

theorem toNat_ofNat_valid (n : Nat) (h : n < 55296) :
    (Char.ofNat n).toNat = n := by
  unfold Char.ofNat
  rw [dif_pos (Or.inl h)]
  unfold Char.ofNatAux Char.toNat
  simp [UInt32.ofNat', UInt32.toNat]

theorem char_eq_iff (c d : Char) : c = d ↔ c.toNat = d.toNat := by
  constructor
  · intro h; rw [h]
  · intro h
    apply Char.ext
    apply UInt32.eq_of_toBitVec_eq
    have h1 : c.val.toNat = d.val.toNat := h
    exact BitVec.eq_of_toNat_eq h1

theorem word_toNat {c : Char} (h : isWordChar c = true) :
    (97 ≤ c.toNat ∧ c.toNat ≤ 122) ∨ (65 ≤ c.toNat ∧ c.toNat ≤ 90) ∨
      (48 ≤ c.toNat ∧ c.toNat ≤ 57) ∨ c.toNat = 95 := by
  simp only [isWordChar, isAlphaNumChar, Bool.or_eq_true, Bool.and_eq_true,
    decide_eq_true_eq] at h
  rcases h with ((h | h) | h) | h
  · exact Or.inl h
  · exact Or.inr (Or.inl h)
  · exact Or.inr (Or.inr (Or.inl h))
  · rw [char_eq_iff] at h
    exact Or.inr (Or.inr (Or.inr h))

theorem alnum_toNat {c : Char} (h : isAlphaNumChar c = true) :
    (97 ≤ c.toNat ∧ c.toNat ≤ 122) ∨ (65 ≤ c.toNat ∧ c.toNat ≤ 90) ∨
      (48 ≤ c.toNat ∧ c.toNat ≤ 57) := by
  simp only [isAlphaNumChar, Bool.or_eq_true, Bool.and_eq_true,
    decide_eq_true_eq] at h
  tauto

theorem word_of_alnum {c : Char} (h : isAlphaNumChar c = true) :
    isWordChar c = true := by
  simp [isWordChar, h]

theorem word_of_digit {c : Char} (h : isDigitChar c = true) :
    isWordChar c = true := by
  simp only [isDigitChar, Bool.and_eq_true, decide_eq_true_eq] at h
  simp [isWordChar, isAlphaNumChar]
  omega

theorem not_space_of_word {c : Char} (h : isWordChar c = true) :
    isSpaceChar c = false := by
  have := word_toNat h
  simp [isSpaceChar]
  omega

theorem word_ne_of_toNat {c : Char} {d : Char} (h : isWordChar c = true)
    (hd : ¬((97 ≤ d.toNat ∧ d.toNat ≤ 122) ∨ (65 ≤ d.toNat ∧ d.toNat ≤ 90) ∨
      (48 ≤ d.toNat ∧ d.toNat ≤ 57) ∨ d.toNat = 95)) : c ≠ d := by
  have hw := word_toNat h
  intro hcd
  rw [char_eq_iff] at hcd
  omega

theorem word_ne_eq {c : Char} (h : isWordChar c = true) : c ≠ '=' := by
  exact word_ne_of_toNat h (by decide)

theorem word_ne_hash {c : Char} (h : isWordChar c = true) : c ≠ '#' := by
  exact word_ne_of_toNat h (by decide)

theorem word_ne_newline {c : Char} (h : isWordChar c = true) : c ≠ '\n' := by
  exact word_ne_of_toNat h (by decide)

theorem lowerChar_toNat (c : Char) :
    (lowerChar c).toNat =
      if 65 ≤ c.toNat ∧ c.toNat ≤ 90 then c.toNat + 32 else c.toNat := by
  unfold lowerChar
  by_cases h : 65 ≤ c.toNat ∧ c.toNat ≤ 90
  · rw [if_pos h]
    rw [if_pos (by simp [h.1, h.2])]
    exact toNat_ofNat_valid _ (by omega)
  · rw [if_neg h]
    rw [if_neg (by simpa [Bool.and_eq_true, decide_eq_true_eq] using h)]

theorem lowerChar_idem (c : Char) : lowerChar (lowerChar c) = lowerChar c := by
  rw [char_eq_iff, lowerChar_toNat, lowerChar_toNat]
  split_ifs <;> omega

theorem strLower_idem (s : Str) : strLower (strLower s) = strLower s := by
  simp only [strLower, List.map_map]
  exact List.map_congr_left (fun c _ => lowerChar_idem c)

/-- a list all of whose characters fail `p` is untouched by `dropWhile` -/
theorem dropWhile_eq_self_of_all {p : Char → Bool} {l : Str}
    (h : ∀ c ∈ l, p c = false) : l.dropWhile p = l := by
  cases l with
  | nil => rfl
  | cons a t => simp [List.dropWhile, h a (by simp)]

theorem strip_eq_self {l : Str} (h : ∀ c ∈ l, isSpaceChar c = false) :
    strip l = l := by
  unfold strip lstripWs
  have h1 : l.reverse.dropWhile isSpaceChar = l.reverse :=
    dropWhile_eq_self_of_all (fun c hc => h c (by simpa using hc))
  rw [h1, List.reverse_reverse]
  exact dropWhile_eq_self_of_all h

theorem isPrefixOf_append_self (l t : Str) : l.isPrefixOf (l ++ t) = true := by
  induction l with
  | nil => simp [List.isPrefixOf]
  | cons a l ih => simp [List.isPrefixOf, ih]

theorem isPrefixOf_cons_false {a b : Char} {l1 l2 : Str} (h : a ≠ b) :
    (a :: l1).isPrefixOf (b :: l2) = false := by
  simp [List.isPrefixOf, h]

theorem takeWhile_append_all {p : Char → Bool} {l1 l2 : Str}
    (h1 : ∀ c ∈ l1, p c = true) (h2 : ∀ b, l2.head? = some b → p b = false) :
    (l1 ++ l2).takeWhile p = l1 := by
  induction l1 with
  | nil =>
    cases l2 with
    | nil => rfl
    | cons b t => simp [List.takeWhile, h2 b rfl]
  | cons a l ih =>
    rw [List.cons_append, List.takeWhile_cons, h1 a (by simp)]
    simp only [if_true]
    rw [ih (fun c hc => h1 c (by simp [hc]))]

theorem contains_append_eq_true (l1 l2 : Str) (c : Char) :
    (l1 ++ c :: l2).contains c = true := by
  induction l1 with
  | nil => simp [List.contains, List.elem]
  | cons a t ih =>
    simp only [List.cons_append, List.contains, List.elem]
    cases h : c == a
    · simpa [List.contains] using ih
    · rfl

theorem digitChar_isDigit {k : Nat} (h : k < 10) :
    isDigitChar (digitChar k) = true := by
  interval_cases k <;> decide

theorem digitChar_val {k : Nat} (h : k < 10) :
    (digitChar k).toNat - 48 = k := by
  interval_cases k <;> decide

theorem natToCharsGo_ne_nil (fuel n : Nat) : natToCharsGo fuel n ≠ [] := by
  cases fuel with
  | zero => simp [natToCharsGo]
  | succ f =>
    simp only [natToCharsGo]
    split
    · simp
    · simp

theorem natToChars_ne_nil (n : Nat) : natToChars n ≠ [] :=
  natToCharsGo_ne_nil n n

theorem natToCharsGo_all_digit (fuel : Nat) : ∀ n, n ≤ fuel →
    ∀ c ∈ natToCharsGo fuel n, isDigitChar c = true := by
  induction fuel with
  | zero =>
    intro n hn c hc
    have : n = 0 := by omega
    subst this
    simp only [natToCharsGo, List.mem_singleton] at hc
    subst hc
    decide
  | succ f ih =>
    intro n hn c hc
    simp only [natToCharsGo] at hc
    by_cases h10 : n < 10
    · rw [if_pos h10] at hc
      simp only [List.mem_singleton] at hc
      subst hc
      exact digitChar_isDigit h10
    · rw [if_neg h10] at hc
      rcases List.mem_append.mp hc with h | h
      · exact ih (n / 10) (by omega) c h
      · simp only [List.mem_singleton] at h
        subst h
        exact digitChar_isDigit (Nat.mod_lt _ (by omega))

theorem natToChars_all_digit (n : Nat) :
    ∀ c ∈ natToChars n, isDigitChar c = true :=
  natToCharsGo_all_digit n n (Nat.le_refl n)

theorem charsToNat_append_singleton (l : Str) (c : Char) :
    charsToNat (l ++ [c]) = charsToNat l * 10 + (c.toNat - 48) := by
  simp [charsToNat, List.foldl_append]

theorem charsToNat_natToCharsGo (fuel : Nat) : ∀ n, n ≤ fuel →
    charsToNat (natToCharsGo fuel n) = n := by
  induction fuel with
  | zero =>
    intro n hn
    have : n = 0 := by omega
    subst this
    decide
  | succ f ih =>
    intro n hn
    simp only [natToCharsGo]
    by_cases h10 : n < 10
    · rw [if_pos h10]
      show 0 * 10 + ((digitChar n).toNat - 48) = n
      rw [digitChar_val h10]
      omega
    · rw [if_neg h10]
      rw [charsToNat_append_singleton, ih (n / 10) (by omega),
        digitChar_val (Nat.mod_lt _ (by omega))]
      omega

theorem charsToNat_natToChars (n : Nat) : charsToNat (natToChars n) = n :=
  charsToNat_natToCharsGo n n (Nat.le_refl n)

/-! splitting and joining lines -/

theorem splitOnChar_ne_nil (sep : Char) (s : Str) : splitOnChar sep s ≠ [] := by
  cases s with
  | nil => simp [splitOnChar]
  | cons c rest =>
    simp only [splitOnChar]
    split
    · simp
    · split <;> simp

theorem splitOnChar_no_sep {sep : Char} {l : Str}
    (h : ∀ c ∈ l, c ≠ sep) : splitOnChar sep l = [l] := by
  induction l with
  | nil => rfl
  | cons a t ih =>
    simp only [splitOnChar]
    rw [ih (fun c hc => h c (by simp [hc]))]
    have ha : a ≠ sep := h a (by simp)
    simp [ha]

theorem splitOnChar_append_sep {sep : Char} {l1 l2 : Str}
    (h : ∀ c ∈ l1, c ≠ sep) :
    splitOnChar sep (l1 ++ sep :: l2) = l1 :: splitOnChar sep l2 := by
  induction l1 with
  | nil =>
    simp only [List.nil_append, splitOnChar]
    cases hs : splitOnChar sep l2 with
    | nil => exact absurd hs (splitOnChar_ne_nil sep l2)
    | cons a t => simp
  | cons a t ih =>
    simp only [List.cons_append, splitOnChar, List.append_eq]
    rw [ih (fun c hc => h c (by simp [hc]))]
    have ha : a ≠ sep := h a (by simp)
    simp [ha]

theorem splitLines_joinLines (ls : List Str) (hne : ls ≠ [])
    (h : ∀ l ∈ ls, ∀ c ∈ l, c ≠ '\n') :
    splitLines (joinLines ls) = ls := by
  induction ls with
  | nil => exact absurd rfl hne
  | cons a t ih =>
    cases t with
    | nil =>
      show splitOnChar '\n' a = [a]
      exact splitOnChar_no_sep (h a (by simp))
    | cons b t2 =>
      simp only [splitLines, joinLines, joinWith, List.append_assoc,
        List.singleton_append]
      rw [splitOnChar_append_sep (h a (by simp))]
      have ih2 := ih (by simp) (fun l hl c hc => h l (by simp [hl]) c hc)
      simp only [splitLines, joinLines] at ih2
      rw [ih2]

/-! ## The regex on canonically rendered assignment lines -/

theorem matchAssign_render (W : Str) (i : Nat) (u : Str) (hW : W ≠ [])
    (hWw : ∀ c ∈ W, isWordChar c = true) (hu : u ≠ []) :
    matchAssign (W ++ "User".toList ++ natToChars i ++ '=' :: u) =
      some (W ++ "User".toList, i, u) := by
  have hKw : ∀ c ∈ W ++ "User".toList ++ natToChars i, isWordChar c = true := by
    intro c hc
    rcases List.mem_append.mp hc with hc | hc
    · rcases List.mem_append.mp hc with hc | hc
      · exact hWw c hc
      · fin_cases hc <;> decide
    · exact word_of_digit (natToChars_all_digit i c hc)
  have hline : W ++ "User".toList ++ natToChars i ++ '=' :: u =
      (W ++ "User".toList ++ natToChars i) ++ '=' :: u := by
    simp [List.append_assoc]
  have hkey : (W ++ "User".toList ++ natToChars i ++ '=' :: u).takeWhile
      (fun c => decide (c ≠ '=')) = W ++ "User".toList ++ natToChars i := by
    rw [hline]
    apply takeWhile_append_all
    · intro c hc
      simp [word_ne_eq (hKw c hc)]
    · intro b hb
      simp only [List.head?_cons, Option.some.injEq] at hb
      simp [← hb]
  have hdrop : (W ++ "User".toList ++ natToChars i ++ '=' :: u).drop
      (W ++ "User".toList ++ natToChars i).length = '=' :: u := by
    rw [hline]
    exact List.drop_left _ _
  have hrev : (W ++ "User".toList ++ natToChars i).reverse.takeWhile
      isDigitChar = (natToChars i).reverse := by
    rw [List.reverse_append, List.reverse_append]
    apply takeWhile_append_all
    · intro c hc
      exact natToChars_all_digit i c (by simpa using hc)
    · intro b hb
      have he : ("User".toList.reverse ++ W.reverse).head? = some 'r' := rfl
      rw [he] at hb
      have hb' : b = 'r' := (Option.some_inj.mp hb).symm
      rw [hb']
      decide
  have htake : (W ++ "User".toList ++ natToChars i).take
      (W ++ "User".toList).length = W ++ "User".toList := List.take_left _ _
  have hsuf : "User".toList.isSuffixOf (W ++ "User".toList) = true := by
    show List.isPrefixOf _ _ = true
    rw [List.reverse_append]
    exact isPrefixOf_append_self _ _
  have hWlen : W.length ≠ 0 := fun h0 => hW (List.eq_nil_of_length_eq_zero h0)
  unfold matchAssign
  simp only [hkey, hdrop]
  rw [if_neg hu]
  rw [if_pos (by simp only [List.all_eq_true]; exact fun c hc => hKw c hc)]
  rw [hrev, List.reverse_reverse]
  rw [if_neg (natToChars_ne_nil i)]
  have hlen2 : (W ++ "User".toList ++ natToChars i).length -
      (natToChars i).length = (W ++ "User".toList).length := by
    simp only [List.length_append]
    omega
  rw [hlen2, htake]
  rw [if_pos hsuf]
  have hne4 : ¬((W ++ "User".toList).length - 4 = 0) := by
    simp only [List.length_append]
    have h4 : "User".toList.length = 4 := rfl
    omega
  rw [if_neg hne4]
  rw [charsToNat_natToChars]

theorem lstripHash_eq_self {l : Str} (h : ∀ b, l.head? = some b → b ≠ '#') :
    lstripHash l = l := by
  cases l with
  | nil => rfl
  | cons a t =>
    unfold lstripHash
    have ha : a ≠ '#' := h a rfl
    simp [List.dropWhile, ha]

/-- a canonically rendered assignment line runs the guard gauntlet of
`parseLine` straight into `classifyAssign`. -/
theorem parseLine_assign {L pfx value : Str} {idx : Nat}
    (st : ParseState) (n : Nat)
    (h1 : strip L = L) (h2 : L ≠ [])
    (h3 : sectionHeaderMarker.isPrefixOf L = false)
    (h4 : namedHeader.isPrefixOf L = false)
    (h5 : concurrentHeader.isPrefixOf L = false)
    (h6 : L.contains '=' = true)
    (h7 : ['#'].isPrefixOf L = false)
    (h8 : matchAssign L = some (pfx, idx, value)) :
    parseLine st n L = classifyAssign st n pfx idx value true := by
  unfold parseLine
  rw [h1]
  rw [if_neg h2, if_neg (by simp [h3]), if_neg (by simp [h4]),
    if_neg (by simp [h5]), if_pos h6]
  simp only [h7, Bool.not_false, if_true, h8]

/-- the guards of `parseLine_assign` hold for a rendered line whose user id
is non-empty and alphanumeric. -/
theorem renderLine_guards (W : Str) (i : Nat) (u : Str) (hW : W ≠ [])
    (hWw : ∀ c ∈ W, isWordChar c = true) (hu : u ≠ [])
    (hua : ∀ x ∈ u, isAlphaNumChar x = true) :
    (∀ x ∈ W ++ "User".toList ++ natToChars i ++ '=' :: u,
        isSpaceChar x = false) ∧
      (W ++ "User".toList ++ natToChars i ++ '=' :: u) ≠ [] ∧
      (∀ b, (W ++ "User".toList ++ natToChars i ++ '=' :: u).head? = some b →
        isWordChar b = true) := by
  refine ⟨?_, ?_, ?_⟩
  · intro x hx
    rcases List.mem_append.mp hx with hx | hx
    · rcases List.mem_append.mp hx with hx | hx
      · rcases List.mem_append.mp hx with hx | hx
        · exact not_space_of_word (hWw x hx)
        · fin_cases hx <;> decide
      · exact not_space_of_word (word_of_digit (natToChars_all_digit i x hx))
    · rcases List.mem_cons.mp hx with hx | hx
      · rw [hx]; decide
      · exact not_space_of_word (word_of_alnum (hua x hx))
  · cases hWc : W with
    | nil => exact absurd hWc hW
    | cons a t => simp [hWc]
  · intro b hb
    cases hWc : W with
    | nil => exact absurd hWc hW
    | cons a t =>
      rw [hWc] at hb
      simp only [List.cons_append, List.head?_cons, Option.some_inj] at hb
      rw [← hb]
      exact hWw a (by rw [hWc]; simp)

theorem hashPrefix_false {p l : Str} (hp : p.head? = some '#')
    (hl : ∀ b, l.head? = some b → b ≠ '#') : p.isPrefixOf l = false := by
  cases p with
  | nil => simp at hp
  | cons a t =>
    simp only [List.head?_cons, Option.some_inj] at hp
    cases l with
    | nil => rfl
    | cons b l2 =>
      apply isPrefixOf_cons_false
      rw [hp]
      exact fun he => (hl b rfl) he.symm

/-- `classifyAssign` on a canonical prefix resolves to the prefix's own
category and assignment type, whatever the surrounding context. -/
theorem classifyAssign_canon (st : ParseState) (n i : Nat) (c m u : Str)
    (hc : c ∈ licenseCategories)
    (hm : m = "Named".toList ∨ m = "Concurrent".toList)
    (hsu : strip u = u) (hu : u ≠ []) :
    classifyAssign st n (strLower m ++ c ++ "User".toList) i u true =
      { st with categoryPart := some c,
                entries := st.entries ++ [⟨c, m, i, u, n, true⟩] } := by
  rcases hm with rfl | rfl <;>
    (simp only [licenseCategories, List.mem_cons, List.not_mem_nil,
      or_false] at hc) <;>
    rcases hc with rfl | rfl | rfl | rfl | rfl <;>
  · unfold classifyAssign
    rw [hsu, if_neg hu]
    rfl

/-- `parseLine` on a canonically rendered assignment line appends exactly
the canonical entry (for any surrounding parse state), and leaves the
leaked `category_part` equal to the category. -/
theorem parseLine_render (st : ParseState) (n i : Nat) (c m u : Str)
    (hc : c ∈ licenseCategories)
    (hm : m = "Named".toList ∨ m = "Concurrent".toList)
    (hu : u ≠ []) (hua : ∀ x ∈ u, isAlphaNumChar x = true) :
    parseLine st n (renderLine m c i u) =
      { st with categoryPart := some c,
                entries := st.entries ++ [⟨c, m, i, u, n, true⟩] } := by
  have hsu : strip u = u :=
    strip_eq_self (fun x hx => not_space_of_word (word_of_alnum (hua x hx)))
  have hWne : strLower m ++ c ≠ [] := by
    rcases hm with rfl | rfl <;>
      (simp only [licenseCategories, List.mem_cons, List.not_mem_nil,
        or_false] at hc) <;>
      rcases hc with rfl | rfl | rfl | rfl | rfl <;> decide
  have hWw : ∀ x ∈ strLower m ++ c, isWordChar x = true := by
    rcases hm with rfl | rfl <;>
      (simp only [licenseCategories, List.mem_cons, List.not_mem_nil,
        or_false] at hc) <;>
      rcases hc with rfl | rfl | rfl | rfl | rfl <;> decide
  have hg := renderLine_guards (strLower m ++ c) i u hWne hWw hu hua
  have hma := matchAssign_render (strLower m ++ c) i u hWne hWw hu
  show parseLine st n
    ((strLower m ++ c) ++ "User".toList ++ natToChars i ++ '=' :: u) = _
  rw [parseLine_assign st n (strip_eq_self hg.1) hg.2.1
    (hashPrefix_false rfl (fun b hb => word_ne_hash (hg.2.2 b hb)))
    (hashPrefix_false rfl (fun b hb => word_ne_hash (hg.2.2 b hb)))
    (hashPrefix_false rfl (fun b hb => word_ne_hash (hg.2.2 b hb)))
    (contains_append_eq_true _ _ '=')
    (hashPrefix_false rfl (fun b hb => word_ne_hash (hg.2.2 b hb)))
    hma]
  exact classifyAssign_canon st n i c m u hc hm hsu hu

/-! ## Canonical single-section configurations, for the round-trip claim -/

/-- a clean user id: non-empty and purely alphanumeric -/
def cleanId (u : Str) : Prop := u ≠ [] ∧ ∀ x ∈ u, isAlphaNumChar x = true

instance (u : Str) : Decidable (cleanId u) := by
  unfold cleanId
  infer_instance

def headerLineFor (c : Str) : Str :=
  "# ------------------------------- POLARION ".toList ++ c

def subheaderFor (m : Str) : Str :=
  "# ".toList ++ strUpper m ++ " USERS:".toList

/-- the assignment lines of a canonical section, slot indices counting up
from `i` -/
def canonAssignLines (c m : Str) (i : Nat) : List Str → List Str
  | [] => []
  | u :: us => renderLine m c i u :: canonAssignLines c m (i + 1) us

def canonLines (c m : Str) (us : List Str) : List Str :=
  headerLineFor c :: subheaderFor m :: canonAssignLines c m 1 us

/-- a configuration text of one category section with one assignment-mode
subsection listing `us` in slot order -/
def mkCanonicalConfig (c m : Str) (us : List Str) : Str :=
  joinLines (canonLines c m us)

/-- the entries such a section parses to: slots from `i`, source lines
from `n` -/
def canonEntries (c m : Str) (i n : Nat) : List Str → List LicenseEntry
  | [] => []
  | u :: us => ⟨c, m, i, u, n, true⟩ :: canonEntries c m (i + 1) (n + 1) us

theorem parseLine_header (st : ParseState) (n : Nat) {c : Str}
    (hc : c ∈ licenseCategories) :
    parseLine st n (headerLineFor c) =
      { st with currentCategory := some c } := by
  simp only [licenseCategories, List.mem_cons, List.not_mem_nil,
    or_false] at hc
  rcases hc with rfl | rfl | rfl | rfl | rfl <;> rfl

theorem parseLine_subheader (st : ParseState) (n : Nat) {m : Str}
    (hm : m = "Named".toList ∨ m = "Concurrent".toList) :
    parseLine st n (subheaderFor m) =
      { st with currentAssignmentType := some m } := by
  rcases hm with rfl | rfl <;> rfl

/-- folding the parser's line loop over canonical assignment lines appends
exactly the canonical entries, from any parse state. -/
theorem parse_canon_fold (c m : Str) (hc : c ∈ licenseCategories)
    (hm : m = "Named".toList ∨ m = "Concurrent".toList) :
    ∀ (us : List Str), (∀ u ∈ us, cleanId u) → ∀ (i : Nat) (st : ParseState)
      (n : Nat),
      ((canonAssignLines c m i us).foldl
        (fun (p : ParseState × Nat) l => (parseLine p.1 p.2 l, p.2 + 1))
        (st, n)).1.entries = st.entries ++ canonEntries c m i n us := by
  intro us
  induction us with
  | nil => intro _ i st n; simp [canonAssignLines, canonEntries]
  | cons u rest ih =>
    intro hus i st n
    have hu := hus u (by simp)
    simp only [canonAssignLines, List.foldl_cons]
    rw [parseLine_render st n i c m u hc hm hu.1 hu.2]
    rw [ih (fun v hv => hus v (by simp [hv])) (i + 1) _ (n + 1)]
    simp [canonEntries]

theorem no_newline_of_canonLines (c m : Str) (hc : c ∈ licenseCategories)
    (hm : m = "Named".toList ∨ m = "Concurrent".toList) :
    ∀ (us : List Str), (∀ u ∈ us, cleanId u) →
      ∀ l ∈ canonLines c m us, ∀ x ∈ l, x ≠ '\n' := by
  intro us hus l hl
  have hhd : ∀ x ∈ headerLineFor c, x ≠ '\n' := by
    simp only [licenseCategories, List.mem_cons, List.not_mem_nil,
      or_false] at hc
    rcases hc with rfl | rfl | rfl | rfl | rfl <;> decide
  have hsub : ∀ x ∈ subheaderFor m, x ≠ '\n' := by
    rcases hm with rfl | rfl <;> decide
  simp only [canonLines, List.mem_cons] at hl
  rcases hl with rfl | rfl | hl
  · exact hhd
  · exact hsub
  · -- an assignment line
    have : ∀ (vs : List Str), (∀ v ∈ vs, cleanId v) → ∀ (i : Nat),
        l ∈ canonAssignLines c m i vs → ∀ x ∈ l, x ≠ '\n' := by
      intro vs
      induction vs with
      | nil => intro _ i hin; simp [canonAssignLines] at hin
      | cons v rest ih =>
        intro hvs i hin
        simp only [canonAssignLines, List.mem_cons] at hin
        rcases hin with rfl | hin
        · intro x hx
          have hv := hvs v (by simp)
          have hWw : ∀ y ∈ strLower m ++ c, isWordChar y = true := by
            rcases hm with rfl | rfl <;>
              (simp only [licenseCategories, List.mem_cons,
                List.not_mem_nil, or_false] at hc) <;>
              rcases hc with rfl | rfl | rfl | rfl | rfl <;> decide
          have hWne : strLower m ++ c ≠ [] := by
            rcases hm with rfl | rfl <;>
              (simp only [licenseCategories, List.mem_cons,
                List.not_mem_nil, or_false] at hc) <;>
              rcases hc with rfl | rfl | rfl | rfl | rfl <;> decide
          have hg := renderLine_guards (strLower m ++ c) i v hWne hWw
            hv.1 hv.2
          have hx' : isSpaceChar x = false := hg.1 x hx
          intro he
          rw [he] at hx'
          exact absurd hx' (by decide)
        · exact ih (fun w hw => hvs w (by simp [hw])) (i + 1) hin
    exact this us hus 1 hl

/-- parsing a canonical configuration yields exactly the canonical
entries (slots from 1, source lines from 3). -/
theorem parse_mkCanonical (c m : Str) (us : List Str)
    (hc : c ∈ licenseCategories)
    (hm : m = "Named".toList ∨ m = "Concurrent".toList)
    (hus : ∀ u ∈ us, cleanId u) :
    parseLicenseConfiguration (mkCanonicalConfig c m us) =
      canonEntries c m 1 3 us := by
  unfold parseLicenseConfiguration mkCanonicalConfig
  rw [show splitLines (joinLines (canonLines c m us)) = canonLines c m us
    from splitLines_joinLines _ (by simp [canonLines])
      (no_newline_of_canonLines c m hc hm us hus)]
  simp only [canonLines, List.foldl_cons]
  rw [parseLine_header initParseState 1 hc]
  rw [parseLine_subheader _ 2 hm]
  rw [parse_canon_fold c m hc hm us hus 1 _ 3]
  rfl

/-! ## The serializer on canonical configurations -/

theorem rebuildStep_header {c : Str} (hc : c ∈ licenseCategories)
    (acc : List Str × Option Str × Option Str) :
    rebuildStep acc (headerLineFor c) =
      (acc.1 ++ [headerLineFor c], some c, acc.2.2) := by
  simp only [licenseCategories, List.mem_cons, List.not_mem_nil,
    or_false] at hc
  rcases hc with rfl | rfl | rfl | rfl | rfl <;> rfl

theorem rebuildStep_subheader {m : Str}
    (hm : m = "Named".toList ∨ m = "Concurrent".toList)
    (acc : List Str × Option Str × Option Str) :
    rebuildStep acc (subheaderFor m) =
      (acc.1 ++ [subheaderFor m], acc.2.1, some m) := by
  rcases hm with rfl | rfl <;> rfl

theorem rebuildStep_render {c m u : Str} {i : Nat}
    (hc : c ∈ licenseCategories)
    (hm : m = "Named".toList ∨ m = "Concurrent".toList)
    (hu : cleanId u) (acc : List Str × Option Str × Option Str)
    (ha : acc.2.1.isSome = true) (hb : acc.2.2.isSome = true) :
    rebuildStep acc (renderLine m c i u) = acc := by
  have hWne : strLower m ++ c ≠ [] := by
    rcases hm with rfl | rfl <;>
      (simp only [licenseCategories, List.mem_cons, List.not_mem_nil,
        or_false] at hc) <;>
      rcases hc with rfl | rfl | rfl | rfl | rfl <;> decide
  have hWw : ∀ x ∈ strLower m ++ c, isWordChar x = true := by
    rcases hm with rfl | rfl <;>
      (simp only [licenseCategories, List.mem_cons, List.not_mem_nil,
        or_false] at hc) <;>
      rcases hc with rfl | rfl | rfl | rfl | rfl <;> decide
  have hg := renderLine_guards (strLower m ++ c) i u hWne hWw hu.1 hu.2
  have hhd : ∀ b, (renderLine m c i u).head? = some b → b ≠ '#' :=
    fun b hb' => word_ne_hash (hg.2.2 b hb')
  have hma : matchAssign (renderLine m c i u) =
      some (strLower m ++ c ++ "User".toList, i, u) :=
    matchAssign_render (strLower m ++ c) i u hWne hWw hu.1
  have hstrip : strip (renderLine m c i u) = renderLine m c i u :=
    strip_eq_self hg.1
  have hhash : lstripHash (renderLine m c i u) = renderLine m c i u :=
    lstripHash_eq_self hhd
  have h1 : sectionHeaderMarker.isPrefixOf (renderLine m c i u) = false :=
    hashPrefix_false rfl hhd
  have h2 : namedHeader.isPrefixOf (renderLine m c i u) = false :=
    hashPrefix_false rfl hhd
  have h3 : concurrentHeader.isPrefixOf (renderLine m c i u) = false :=
    hashPrefix_false rfl hhd
  have h6 : (renderLine m c i u).contains '=' = true := by
    show ((strLower m ++ c ++ "User".toList ++ natToChars i) ++
      '=' :: u).contains '=' = true
    exact contains_append_eq_true _ _ '='
  unfold rebuildStep
  rw [hstrip]
  rw [if_neg (by simp [h1]), if_neg (by simp [h2]), if_neg (by simp [h3])]
  rw [if_pos (by rw [ha, hb, h6, hhash, hma]; rfl)]

theorem rebuild_fold_render (c m : Str) (hc : c ∈ licenseCategories)
    (hm : m = "Named".toList ∨ m = "Concurrent".toList) :
    ∀ (us : List Str), (∀ u ∈ us, cleanId u) → ∀ (i : Nat)
      (acc : List Str × Option Str × Option Str),
      acc.2.1.isSome = true → acc.2.2.isSome = true →
      (canonAssignLines c m i us).foldl rebuildStep acc = acc := by
  intro us
  induction us with
  | nil => intro _ i acc _ _; rfl
  | cons u rest ih =>
    intro hus i acc ha hb
    simp only [canonAssignLines, List.foldl_cons]
    rw [rebuildStep_render hc hm (hus u (by simp)) acc ha hb]
    exact ih (fun v hv => hus v (by simp [hv])) (i + 1) acc ha hb

theorem rebuild_canon (c m : Str) (us : List Str)
    (hc : c ∈ licenseCategories)
    (hm : m = "Named".toList ∨ m = "Concurrent".toList)
    (hus : ∀ u ∈ us, cleanId u) :
    rebuildLines (canonLines c m us) =
      [headerLineFor c, subheaderFor m] := by
  unfold rebuildLines
  simp only [canonLines, List.foldl_cons]
  rw [rebuildStep_header hc, rebuildStep_subheader hm]
  rw [rebuild_fold_render c m hc hm us hus 1 _ (by rfl) (by rfl)]
  rfl

theorem entryLe_same_part (c m u v : Str) (i j n k : Nat) (hij : i ≤ j)
    (a b : Bool) :
    entryLe ⟨c, m, i, u, n, a⟩ ⟨c, m, j, v, k, b⟩ = true := by
  simp [entryLe, hij]

theorem stableSort_canonEntries (c m : Str) :
    ∀ (us : List Str) (i n : Nat),
      stableSort entryLe (canonEntries c m i n us) =
        canonEntries c m i n us := by
  intro us
  induction us with
  | nil => intro i n; rfl
  | cons u rest ih =>
    intro i n
    simp only [canonEntries, stableSort]
    rw [ih (i + 1) (n + 1)]
    cases hrest : rest with
    | nil => rfl
    | cons v rest2 =>
      simp only [canonEntries, stableInsert]
      rw [if_pos (entryLe_same_part c m u v i (i + 1) n (n + 1)
        (by omega) true true)]

theorem canonEntries_fields (c m : Str) : ∀ (us : List Str) (i n : Nat),
    ∀ e ∈ canonEntries c m i n us,
      e.license_type = c ∧ e.assignment_type = m ∧ e.is_active = true := by
  intro us
  induction us with
  | nil => intro i n e he; simp [canonEntries] at he
  | cons u rest ih =>
    intro i n e he
    simp only [canonEntries, List.mem_cons] at he
    rcases he with rfl | he
    · exact ⟨rfl, rfl, rfl⟩
    · exact ih (i + 1) (n + 1) e he

theorem group_fold_same (c m : Str) :
    ∀ (es : List LicenseEntry) (acc : List LicenseEntry),
      (∀ e ∈ es, e.license_type = c ∧ e.assignment_type = m) →
      es.foldl groupStep [((c, m), acc)] = [((c, m), acc ++ es)] := by
  intro es
  induction es with
  | nil => intro acc _; simp
  | cons e rest ih =>
    intro acc hes
    obtain ⟨hlt, hat⟩ := hes e (by simp)
    simp only [List.foldl_cons]
    have hstep : groupStep [((c, m), acc)] e = [((c, m), acc ++ [e])] := by
      unfold groupStep
      rw [hlt, hat]
      simp [dGet, dSet, List.find?]
    rw [hstep, ih (acc ++ [e]) (fun x hx => hes x (by simp [hx]))]
    simp

theorem group_canon (c m : Str) (us : List Str) (i n : Nat) (hne : us ≠ []) :
    (canonEntries c m i n us).foldl groupStep [] =
      [((c, m), canonEntries c m i n us)] := by
  cases us with
  | nil => exact absurd rfl hne
  | cons u rest =>
    simp only [canonEntries, List.foldl_cons]
    have hstep : groupStep [] ⟨c, m, i, u, n, true⟩ =
        [((c, m), [⟨c, m, i, u, n, true⟩])] := by
      unfold groupStep
      simp [dGet, dSet, List.find?]
    rw [hstep]
    rw [group_fold_same c m _ _ (fun e he =>
      ⟨(canonEntries_fields c m rest (i + 1) (n + 1) e he).1,
       (canonEntries_fields c m rest (i + 1) (n + 1) e he).2.1⟩)]
    rfl

theorem insStep_fold_end (at_ cat : Str) :
    ∀ (es : List LicenseEntry) (nls : List Str) (pos : Nat),
      pos = nls.length →
      (es.foldl (insStep at_ cat) (nls, pos)).1 =
        nls ++ es.map (renderEntryLine at_ cat) := by
  intro es
  induction es with
  | nil => intro nls pos _; simp
  | cons e rest ih =>
    intro nls pos hpos
    simp only [List.foldl_cons]
    have hins : insStep at_ cat (nls, pos) e =
        (nls ++ [renderEntryLine at_ cat e], pos + 1) := by
      unfold insStep insertAt
      rw [hpos]
      simp
    rw [hins, ih _ (pos + 1) (by simp [hpos])]
    simp

theorem map_renderEntry_canon (c m : Str) : ∀ (us : List Str) (i n : Nat),
    (canonEntries c m i n us).map (renderEntryLine m c) =
      canonAssignLines c m i us := by
  intro us
  induction us with
  | nil => intro i n; rfl
  | cons u rest ih =>
    intro i n
    simp only [canonEntries, canonAssignLines, List.map_cons]
    rw [ih (i + 1) (n + 1)]
    rfl

theorem findSection_canon {c m : Str} (hc : c ∈ licenseCategories)
    (hm : m = "Named".toList ∨ m = "Concurrent".toList) :
    findSection c [headerLineFor c, subheaderFor m] = some 0 := by
  rcases hm with rfl | rfl <;>
    (simp only [licenseCategories, List.mem_cons, List.not_mem_nil,
      or_false] at hc) <;>
    rcases hc with rfl | rfl | rfl | rfl | rfl <;> decide

theorem findSubsection_canon {c m : Str} (hc : c ∈ licenseCategories)
    (hm : m = "Named".toList ∨ m = "Concurrent".toList) :
    findSubsection m [headerLineFor c, subheaderFor m] 0 = some 2 := by
  rcases hm with rfl | rfl <;>
    (simp only [licenseCategories, List.mem_cons, List.not_mem_nil,
      or_false] at hc) <;>
    rcases hc with rfl | rfl | rfl | rfl | rfl <;> decide

/-- serializing an unmodified canonical state reproduces the canonical
text verbatim. -/
theorem update_canonical (c m : Str) (us : List Str)
    (hc : c ∈ licenseCategories)
    (hm : m = "Named".toList ∨ m = "Concurrent".toList)
    (hus : ∀ u ∈ us, cleanId u) :
    updateLicenseConfigText
      ⟨[], canonEntries c m 1 3 us, mkCanonicalConfig c m us, []⟩ =
      mkCanonicalConfig c m us := by
  unfold updateLicenseConfigText
  show joinLines ((stableSort entryLe (canonEntries c m 1 3 us)).foldl
    groupStep [] |>.foldl insertGroup
      (rebuildLines (splitLines (mkCanonicalConfig c m us)))) = _
  rw [show splitLines (mkCanonicalConfig c m us) = canonLines c m us
    from splitLines_joinLines _ (by simp [canonLines])
      (no_newline_of_canonLines c m hc hm us hus)]
  rw [rebuild_canon c m us hc hm hus]
  rw [stableSort_canonEntries c m us 1 3]
  cases hus0 : us with
  | nil => rfl
  | cons u0 rest0 =>
    rw [← hus0]
    rw [group_canon c m us 1 3 (by rw [hus0]; simp)]
    simp only [List.foldl_cons, List.foldl_nil]
    unfold insertGroup
    simp only [findSection_canon hc hm, findSubsection_canon hc hm]
    rw [insStep_fold_end m c (canonEntries c m 1 3 us)
      [headerLineFor c, subheaderFor m] 2 (by rfl)]
    rw [map_renderEntry_canon c m us 1 3]
    rfl

/-! ## Ordered-dictionary lemmas and the per-user table -/

theorem dGet_dSet_self {κ α : Type} [BEq κ] [LawfulBEq κ]
    (d : List (κ × α)) (k : κ) (v : α) : dGet (dSet d k v) k = some v := by
  induction d with
  | nil => simp [dSet, dGet, List.find?]
  | cons p rest ih =>
    obtain ⟨k', v'⟩ := p
    by_cases h : k' = k
    · subst h
      simp [dSet, dGet, List.find?]
    · have hb : (k' == k) = false := by simp [h]
      simp only [dSet, hb, Bool.false_eq_true, if_false]
      simp only [dGet, List.find?, hb] at ih ⊢
      exact ih

theorem dGet_dSet_ne {κ α : Type} [BEq κ] [LawfulBEq κ]
    (d : List (κ × α)) (k k' : κ) (v : α) (h : k' ≠ k) :
    dGet (dSet d k v) k' = dGet d k' := by
  induction d with
  | nil =>
    have hb : (k == k') = false := by
      simp only [beq_eq_false_iff_ne, ne_eq]
      exact fun he => h he.symm
    simp [dSet, dGet, List.find?, hb]
  | cons p rest ih =>
    obtain ⟨k2, v2⟩ := p
    by_cases h2 : k2 = k
    · subst h2
      have hb : (k2 == k') = false := by
        simp only [beq_eq_false_iff_ne, ne_eq]
        exact fun he => h he.symm
      simp [dSet, dGet, List.find?, hb]
    · have hb2 : (k2 == k) = false := by simp [h2]
      simp only [dSet, hb2, Bool.false_eq_true, if_false]
      by_cases h3 : k2 = k'
      · subst h3
        simp [dGet, List.find?]
      · have hb3 : (k2 == k') = false := by simp [h3]
        simp only [dGet, List.find?, hb3] at ih ⊢
        exact ih

theorem dGet_map_nil {α : Type} (users : List (Str × α)) (k : Str) :
    dGet (users.map (fun p => (p.1, ([] : List LicenseEntry)))) k =
      (dGet users k).map (fun _ => ([] : List LicenseEntry)) := by
  induction users with
  | nil => simp [dGet]
  | cons p rest ih =>
    obtain ⟨k', v'⟩ := p
    by_cases h : k' = k
    · subst h
      simp [dGet, List.find?]
    · have hb : (k' == k) = false := by simp [h]
      simp only [List.map_cons, dGet, List.find?, hb] at ih ⊢
      exact ih

/-- the active-entry predicate the table accumulates under key `k` -/
def matchesKey (k : Str) (e : LicenseEntry) : Bool :=
  e.is_active && (strLower e.user_id == k)

theorem buildStep_acc (k : Str) (hk : strLower k = k)
    (tbl : List (Str × List LicenseEntry)) (acc : List LicenseEntry)
    (e : LicenseEntry) (htbl : dGet tbl k = some acc) :
    dGet (buildStep tbl e) k =
      some (acc ++ (if matchesKey k e then [e] else [])) := by
  unfold buildStep matchesKey
  cases ha : e.is_active with
  | false => simpa [htbl] using htbl
  | true =>
    simp only [if_true, Bool.true_and]
    by_cases hkl : strLower e.user_id = k
    · rw [hkl, htbl]
      rw [dGet_dSet_self]
      simp [hkl]
    · have hbe : (strLower e.user_id == k) = false := by simp [hkl]
      rw [hbe]
      cases hg : dGet tbl (strLower e.user_id) with
      | some l =>
        rw [dGet_dSet_ne _ _ _ _ (fun he => hkl he.symm)]
        simp [htbl]
      | none =>
        have huid : e.user_id ≠ k := by
          intro he
          rw [he, hk] at hkl
          exact hkl rfl
        rw [dGet_dSet_ne _ _ _ _ (fun he => huid he.symm)]
        simp [htbl]

theorem buildTable_fold (k : Str) (hk : strLower k = k) :
    ∀ (entries : List LicenseEntry) (tbl : List (Str × List LicenseEntry))
      (acc : List LicenseEntry), dGet tbl k = some acc →
      dGet (entries.foldl buildStep tbl) k =
        some (acc ++ entries.filter (matchesKey k)) := by
  intro entries
  induction entries with
  | nil => intro tbl acc h; simpa using h
  | cons e rest ih =>
    intro tbl acc h
    simp only [List.foldl_cons]
    rw [ih _ _ (buildStep_acc k hk tbl acc e h)]
    cases hm : matchesKey k e <;> simp [List.filter_cons, hm]

/-- the table's entry list under a directory key `k` (a lower-cased key
present in the directory) is exactly the active entries whose lower-cased
user id is `k`, in entry-list order. -/
theorem dGet_buildTable (users : List (Str × User))
    (entries : List LicenseEntry) (k : Str) (hk : strLower k = k)
    (hdir : (dGet users k).isSome = true) :
    dGet (buildCombinedUserLicenseTable users entries) k =
      some (entries.filter (matchesKey k)) := by
  unfold buildCombinedUserLicenseTable
  have h0 : dGet (users.map (fun p => (p.1, ([] : List LicenseEntry)))) k =
      some [] := by
    rw [dGet_map_nil]
    cases hg : dGet users k with
    | none => rw [hg] at hdir; simp at hdir
    | some u => simp
  rw [buildTable_fold k hk entries _ [] h0]
  simp

/-! ## Lemmas about the remove scan and slot computation -/

theorem removeFirstMatch_none_iff (uid lt at_ : Str) :
    ∀ (l : List LicenseEntry), removeFirstMatch uid lt at_ l = none ↔
      ∀ e ∈ l, removePred uid lt at_ e = false := by
  intro l
  induction l with
  | nil => simp [removeFirstMatch]
  | cons e rest ih =>
    unfold removeFirstMatch
    cases hp : removePred uid lt at_ e with
    | true =>
      simp only [if_true]
      constructor
      · intro h; simp at h
      · intro h
        have := h e (by simp)
        rw [hp] at this
        simp at this
    | false =>
      simp only [Bool.false_eq_true, if_false]
      constructor
      · intro h
        intro x hx
        rcases List.mem_cons.mp hx with rfl | hx
        · exact hp
        · exact (ih.mp (by
            cases hr : removeFirstMatch uid lt at_ rest with
            | none => rfl
            | some p => rw [hr] at h; simp at h)) x hx
      · intro h
        rw [ih.mpr (fun x hx => h x (by simp [hx]))]
        rfl

theorem removeFirstMatch_some (uid lt at_ : Str) :
    ∀ (l l' : List LicenseEntry) (e : LicenseEntry),
      removeFirstMatch uid lt at_ l = some (l', e) →
      ∃ l1 l2, l = l1 ++ e :: l2 ∧ removePred uid lt at_ e = true ∧
        (∀ x ∈ l1, removePred uid lt at_ x = false) ∧
        l' = l1 ++ { e with is_active := false } :: l2 := by
  intro l
  induction l with
  | nil => intro l' e h; simp [removeFirstMatch] at h
  | cons a rest ih =>
    intro l' e h
    unfold removeFirstMatch at h
    cases hp : removePred uid lt at_ a with
    | true =>
      rw [hp, if_pos rfl] at h
      simp only [Option.some_inj, Prod.mk.injEq] at h
      obtain ⟨h1, h2⟩ := h
      subst h2
      exact ⟨[], rest, by simp, hp, by simp, by simp [← h1]⟩
    | false =>
      rw [hp] at h
      simp only [Bool.false_eq_true, if_false] at h
      cases hr : removeFirstMatch uid lt at_ rest with
      | none => rw [hr] at h; simp at h
      | some p =>
        rw [hr] at h
        have h2 : (a :: p.1, p.2) = (l', e) := by simpa using h
        have hle : l' = a :: p.1 := (Prod.ext_iff.mp h2).1.symm
        have hee : e = p.2 := (Prod.ext_iff.mp h2).2.symm
        obtain ⟨l1, l2, hsplit, hpe, hl1, hl'⟩ := ih p.1 p.2 (by rw [hr])
        refine ⟨a :: l1, l2, ?_, ?_, ?_, ?_⟩
        · rw [hee]; simp [hsplit]
        · rw [hee]; exact hpe
        · intro x hx
          rcases List.mem_cons.mp hx with rfl | hx
          · exact hp
          · exact hl1 x hx
        · rw [hle, hee, hl']
          simp

theorem foldl_max_le : ∀ (l : List Nat) (k a : Nat),
    (∀ x ∈ l, x ≤ k) → a ≤ k → l.foldl max a ≤ k := by
  intro l
  induction l with
  | nil => intro k a _ ha; simpa using ha
  | cons x t ih =>
    intro k a h ha
    simp only [List.foldl_cons]
    exact ih k (max a x) (fun y hy => h y (by simp [hy]))
      (by simp [ha, h x (by simp)])

theorem le_foldl_max_init : ∀ (l : List Nat) (a : Nat), a ≤ l.foldl max a := by
  intro l
  induction l with
  | nil => intro a; simp
  | cons x t ih =>
    intro a
    simp only [List.foldl_cons]
    exact le_trans (Nat.le_max_left a x) (ih (max a x))

theorem le_foldl_max_of_mem : ∀ (l : List Nat) (k a : Nat), k ∈ l →
    k ≤ l.foldl max a := by
  intro l
  induction l with
  | nil => intro k a h; simp at h
  | cons x t ih =>
    intro k a h
    rcases List.mem_cons.mp h with rfl | h
    · simp only [List.foldl_cons]
      exact le_trans (Nat.le_max_right a k) (le_foldl_max_init t (max a k))
    · exact ih k (max a x) h

theorem foldl_max_eq (l : List Nat) (k : Nat) (hall : ∀ x ∈ l, x ≤ k)
    (hmem : k ∈ l) : l.foldl max 0 = k :=
  Nat.le_antisymm (foldl_max_le l k 0 hall (Nat.zero_le k))
    (le_foldl_max_of_mem l k 0 hmem)

/-! ## Claim-level definitions -/

/-- the observable content of an active entry, line numbers ignored -/
def activeQuads (entries : List LicenseEntry) :
    List (Str × Str × Nat × Str) :=
  (entries.filter (fun e => e.is_active)).map
    (fun e => (e.license_type, e.assignment_type, e.index, e.user_id))

/-- a QA section whose single assignment line carries an explicit ALM
prefix: the parsed entry's section does not exist in the text. -/
def cexRoundTripText : Str :=
  ("# ------------------------------- POLARION QA " ++
   "-------------------------------\n# NAMED USERS:\nnamedALMUser1=bob").toList

/-- the active indices of a `(category, mode)` partition, as the spec
describes them -/
def activeIndicesIn (entries : List LicenseEntry) (lt at_ : Str) :
    List Nat :=
  (entries.filter (fun e => e.is_active && e.license_type == lt &&
    e.assignment_type == at_)).map (fun e => e.index)

theorem findAvailableSlot_eq (entries : List LicenseEntry) (lt at_ : Str) :
    findAvailableSlot entries lt at_ =
      if activeIndicesIn entries lt at_ = [] then 1
      else (activeIndicesIn entries lt at_).foldl max 0 + 1 := by
  unfold findAvailableSlot activeIndicesIn
  have hfe : entries.filter (fun e => e.license_type == lt &&
      e.assignment_type == at_ && e.is_active) =
      entries.filter (fun e => e.is_active && e.license_type == lt &&
        e.assignment_type == at_) := by
    apply List.filter_congr
    intro e _
    cases e.is_active <;> cases (e.license_type == lt) <;>
      cases (e.assignment_type == at_) <;> rfl
  rw [hfe]
  cases hl : (entries.filter (fun e => e.is_active &&
      e.license_type == lt && e.assignment_type == at_)).map
      (fun e => e.index) with
  | nil => simp [hl]
  | cons x t => simp [hl]

/-! ## Claim C1: round-trip idempotence -/

/-- C1, counterexample: for the text `cexRoundTripText` (a QA section whose
only assignment line carries an explicit ALM/Named prefix), parsing, then
serializing the unmodified entry list, then re-parsing does NOT preserve
the set of active (license_type, assignment_type, index, user_id)
quadruples: the serializer finds no ALM section to re-insert the entry
into and silently drops it. -/
theorem c1_roundtrip_counterexample :
    ¬ (∀ q, q ∈ activeQuads (parseLicenseConfiguration
        (updateLicenseConfigText ⟨[],
          parseLicenseConfiguration cexRoundTripText, cexRoundTripText,
          []⟩)) ↔
      q ∈ activeQuads (parseLicenseConfiguration cexRoundTripText)) := by
  intro h
  have h2 := (h ("ALM".toList, "Named".toList, 1, "bob".toList)).mpr
    (by decide)
  exact absurd h2 (by decide)

/-- C1, amended: round-trip idempotence holds for configuration texts in
which every entry's section and subsection exist and agree with its
prefix; concretely, for every canonical single-section text (one category
header `c`, one `NAMED`/`CONCURRENT` subheader `m`, and assignment lines
`<m.lower><c>User<i>=<u_i>` for non-empty alphanumeric user ids), parsing
the serializer's output of the unmodified entry list yields the same
active (license_type, assignment_type, index, user_id) quadruples as
parsing the original text. -/
theorem c1_roundtrip_amended (c m : Str) (us : List Str)
    (hc : c ∈ licenseCategories)
    (hm : m = "Named".toList ∨ m = "Concurrent".toList)
    (hus : ∀ u ∈ us, cleanId u) :
    activeQuads (parseLicenseConfiguration (updateLicenseConfigText
      ⟨[], parseLicenseConfiguration (mkCanonicalConfig c m us),
       mkCanonicalConfig c m us, []⟩)) =
      activeQuads (parseLicenseConfiguration (mkCanonicalConfig c m us)) := by
  rw [parse_mkCanonical c m us hc hm hus,
    update_canonical c m us hc hm hus,
    parse_mkCanonical c m us hc hm hus]

/-- C1, witness: the amended round-trip theorem applied to a concrete
ALM/Named section with two users. -/
theorem c1_roundtrip_amended_witness :
    activeQuads (parseLicenseConfiguration (updateLicenseConfigText
      ⟨[], parseLicenseConfiguration (mkCanonicalConfig "ALM".toList
        "Named".toList ["bshrager".toList, "uhizi".toList]),
       mkCanonicalConfig "ALM".toList "Named".toList
         ["bshrager".toList, "uhizi".toList], []⟩)) =
      activeQuads (parseLicenseConfiguration (mkCanonicalConfig
        "ALM".toList "Named".toList
        ["bshrager".toList, "uhizi".toList])) :=
  c1_roundtrip_amended "ALM".toList "Named".toList
    ["bshrager".toList, "uhizi".toList] (by decide) (Or.inl rfl) (by decide)

/-! ## Claim C3: slot allocation follows max+1 over active entries -/

/-- C3: whenever `add_user_license` succeeds, the appended entry's index is
`max(active indices of the same (category, mode) partition) + 1`, or `1`
when the partition has no active entries; the rest of the entry list is
untouched and the new entry is active with `source_line = 0`. -/
theorem c3_slot_allocation (st : MState) (user : User) (lt at_ : Str)
    (hs : (addUserLicense st user lt at_).1 = true) :
    (addUserLicense st user lt at_).2.license_entries =
      st.license_entries ++
        [⟨lt, at_,
          (if activeIndicesIn st.license_entries lt at_ = [] then 1
           else (activeIndicesIn st.license_entries lt at_).foldl max 0 + 1),
          user.user_id, 0, true⟩] := by
  unfold addUserLicense at hs ⊢
  by_cases hex : ((dGet (buildCombinedUserLicenseTable st.users
      st.license_entries) (strLower user.user_id)).getD []) ≠ []
  · rw [if_pos hex] at hs
    simp at hs
  · rw [if_neg hex]
    rw [← findAvailableSlot_eq]

/-- C3, witness: with active ALM/Named indices {1,2,4} the appended index
is 5 (not the gap 3). -/
theorem c3_slot_allocation_witness :
    (addUserLicense ⟨[],
      [⟨"ALM".toList, "Named".toList, 1, "u1".toList, 3, true⟩,
       ⟨"ALM".toList, "Named".toList, 2, "u2".toList, 4, true⟩,
       ⟨"ALM".toList, "Named".toList, 4, "u4".toList, 5, true⟩],
      [], []⟩
      ⟨"bob".toList, "Bob".toList, [] ⟩ "ALM".toList "Named".toList
      ).2.license_entries =
      [⟨"ALM".toList, "Named".toList, 1, "u1".toList, 3, true⟩,
       ⟨"ALM".toList, "Named".toList, 2, "u2".toList, 4, true⟩,
       ⟨"ALM".toList, "Named".toList, 4, "u4".toList, 5, true⟩] ++
        [⟨"ALM".toList, "Named".toList,
          (if activeIndicesIn
              [⟨"ALM".toList, "Named".toList, 1, "u1".toList, 3, true⟩,
               ⟨"ALM".toList, "Named".toList, 2, "u2".toList, 4, true⟩,
               ⟨"ALM".toList, "Named".toList, 4, "u4".toList, 5, true⟩]
              "ALM".toList "Named".toList = [] then 1
           else (activeIndicesIn
              [⟨"ALM".toList, "Named".toList, 1, "u1".toList, 3, true⟩,
               ⟨"ALM".toList, "Named".toList, 2, "u2".toList, 4, true⟩,
               ⟨"ALM".toList, "Named".toList, 4, "u4".toList, 5, true⟩]
              "ALM".toList "Named".toList).foldl max 0 + 1),
          "bob".toList, 0, true⟩] :=
  c3_slot_allocation _ _ _ _ (by decide)

/-! ## Claim C7: the remove contract -/

/-- C7: `remove_user_license` fails exactly when no entry satisfies the
(case-insensitive user id, license type, assignment type, active)
predicate, and leaves the state unchanged on failure; on success the entry
list is the original with precisely the first matching entry's active flag
set to false (no entry deleted, no other entry modified), and exactly one
`remove` change record carrying the reconstructed assignment line is
appended. -/
theorem c7_remove_contract (st : MState) (uid lt at_ : Str) :
    ((removeUserLicense st uid lt at_).1 = false ↔
      ∀ e ∈ st.license_entries, removePred uid lt at_ e = false) ∧
    ((removeUserLicense st uid lt at_).1 = false →
      (removeUserLicense st uid lt at_).2 = st) ∧
    ((removeUserLicense st uid lt at_).1 = true →
      ∃ l1 e l2, st.license_entries = l1 ++ e :: l2 ∧
        removePred uid lt at_ e = true ∧
        (∀ x ∈ l1, removePred uid lt at_ x = false) ∧
        (removeUserLicense st uid lt at_).2.license_entries =
          l1 ++ { e with is_active := false } :: l2 ∧
        (removeUserLicense st uid lt at_).2.changes = st.changes ++
          [⟨uid,
            (match dGet st.users (strLower uid) with
             | some u => u.full_name
             | none => uid),
            "remove".toList, some (at_ ++ ' ' :: lt), none, none,
            some (renderLine at_ lt e.index uid)⟩] ∧
        (removeUserLicense st uid lt at_).2.users = st.users ∧
        (removeUserLicense st uid lt at_).2.license_config_text =
          st.license_config_text) := by
  unfold removeUserLicense
  cases hr : removeFirstMatch uid lt at_ st.license_entries with
  | none =>
    refine ⟨?_, fun _ => rfl, fun h => by simp at h⟩
    simp only [true_iff]
    exact (removeFirstMatch_none_iff uid lt at_ st.license_entries).mp hr
  | some p =>
    obtain ⟨l', e⟩ := p
    obtain ⟨l1, l2, hsplit, hpe, hl1, hl'⟩ :=
      removeFirstMatch_some uid lt at_ st.license_entries l' e hr
    refine ⟨?_, ?_, ?_⟩
    · constructor
      · intro h; simp at h
      · intro h
        have := h e (by rw [hsplit]; simp)
        rw [hpe] at this
        simp at this
    · intro h; simp at h
    · intro _
      exact ⟨l1, e, l2, hsplit, hpe, hl1, hl', rfl, rfl, rfl⟩

/-- C7, witness: a concrete successful removal, with the success
hypothesis of the contract's third part discharged by computation. -/
theorem c7_remove_contract_witness :
    ∃ l1 e l2,
      ([⟨"ALM".toList, "Named".toList, 1, "bob".toList, 3, true⟩] :
        List LicenseEntry) = l1 ++ e :: l2 ∧
      removePred "BOB".toList "ALM".toList "Named".toList e = true ∧
      (∀ x ∈ l1,
        removePred "BOB".toList "ALM".toList "Named".toList x = false) ∧
      (removeUserLicense ⟨[],
        [⟨"ALM".toList, "Named".toList, 1, "bob".toList, 3, true⟩],
        [], []⟩ "BOB".toList "ALM".toList
        "Named".toList).2.license_entries =
        l1 ++ { e with is_active := false } :: l2 ∧
      (removeUserLicense ⟨[],
        [⟨"ALM".toList, "Named".toList, 1, "bob".toList, 3, true⟩],
        [], []⟩ "BOB".toList "ALM".toList "Named".toList).2.changes =
        [] ++
        [⟨"BOB".toList,
          (match dGet ([] : List (Str × User))
              (strLower "BOB".toList) with
           | some u => u.full_name
           | none => "BOB".toList),
          "remove".toList,
          some ("Named".toList ++ ' ' :: "ALM".toList), none, none,
          some (renderLine "Named".toList "ALM".toList e.index
            "BOB".toList)⟩] ∧
      (removeUserLicense ⟨[],
        [⟨"ALM".toList, "Named".toList, 1, "bob".toList, 3, true⟩],
        [], []⟩ "BOB".toList "ALM".toList "Named".toList).2.users = [] ∧
      (removeUserLicense ⟨[],
        [⟨"ALM".toList, "Named".toList, 1, "bob".toList, 3, true⟩],
        [], []⟩ "BOB".toList "ALM".toList
        "Named".toList).2.license_config_text = [] :=
  (c7_remove_contract ⟨[],
    [⟨"ALM".toList, "Named".toList, 1, "bob".toList, 3, true⟩],
    [], []⟩ "BOB".toList "ALM".toList "Named".toList).2.2 (by decide)

/-! ## Claim C4: add fails for users with existing active entries -/

theorem matchesKey_iff (k : Str) (e : LicenseEntry) :
    matchesKey k e = true ↔ e.is_active = true ∧ strLower e.user_id = k := by
  simp [matchesKey]

/-- C4, counterexample: with an empty directory and one active entry with
literal user id `Bob`, adding a license for the (non-directory) user `bob`
SUCCEEDS even though `bob` already holds an active entry under
case-insensitive comparison — the stale entry is keyed by its literal id
`Bob` in the table, so the lookup under `bob` misses it. -/
theorem c4_add_uniqueness_counterexample :
    (addUserLicense
      ⟨[], [⟨"ALM".toList, "Named".toList, 1, "Bob".toList, 3, true⟩],
       [], []⟩
      ⟨"bob".toList, "Bob".toList, []⟩ "QA".toList "Named".toList).1 =
      true ∧
    ∃ e ∈ ([⟨"ALM".toList, "Named".toList, 1, "Bob".toList, 3, true⟩] :
        List LicenseEntry),
      e.is_active = true ∧
        strLower e.user_id = strLower ("bob".toList) := by
  constructor
  · decide
  · decide

/-- C4, amended: provided the user's lower-cased id is a key of the
directory (which holds for every user resolved through the directory, the
only way the application obtains a `User`), `add_user_license` fails
exactly when the user already holds an active entry of any category and
mode under case-insensitive id comparison, and a failed add leaves the
state unchanged. -/
theorem c4_add_uniqueness_amended (st : MState) (user : User)
    (lt at_ : Str)
    (hdir : (dGet st.users (strLower user.user_id)).isSome = true) :
    ((addUserLicense st user lt at_).1 = false ↔
      ∃ e ∈ st.license_entries, e.is_active = true ∧
        strLower e.user_id = strLower user.user_id) ∧
    ((addUserLicense st user lt at_).1 = false →
      (addUserLicense st user lt at_).2 = st) := by
  have htbl := dGet_buildTable st.users st.license_entries
    (strLower user.user_id) (strLower_idem user.user_id) hdir
  simp only [addUserLicense, htbl, Option.getD_some]
  by_cases hne :
      st.license_entries.filter (matchesKey (strLower user.user_id)) ≠ []
  · rw [if_pos hne]
    refine ⟨?_, fun _ => rfl⟩
    simp only [true_iff]
    cases hf : st.license_entries.filter
        (matchesKey (strLower user.user_id)) with
    | nil => exact absurd hf hne
    | cons e r =>
      have he : e ∈ st.license_entries.filter
          (matchesKey (strLower user.user_id)) := by rw [hf]; simp
      have he2 := List.mem_filter.mp he
      exact ⟨e, he2.1, (matchesKey_iff _ e).mp he2.2⟩
  · rw [if_neg hne]
    push_neg at hne
    constructor
    · constructor
      · intro h; simp at h
      · intro ⟨e, hmem, hact, hlow⟩
        have : e ∈ st.license_entries.filter
            (matchesKey (strLower user.user_id)) :=
          List.mem_filter.mpr ⟨hmem, (matchesKey_iff _ e).mpr ⟨hact, hlow⟩⟩
        rw [hne] at this
        simp at this
    · intro h; simp at h

/-- C4, witness: the amended theorem at a one-user directory, deciding the
directory-membership hypothesis by computation. -/
theorem c4_add_uniqueness_amended_witness :
    ((addUserLicense
      ⟨[("bob".toList, ⟨"bob".toList, "Bob".toList, []⟩)],
       [⟨"ALM".toList, "Named".toList, 1, "BOB".toList, 3, true⟩],
       [], []⟩
      ⟨"bob".toList, "Bob".toList, []⟩ "QA".toList "Named".toList).1 =
        false ↔
      ∃ e ∈ ([⟨"ALM".toList, "Named".toList, 1, "BOB".toList, 3, true⟩] :
          List LicenseEntry),
        e.is_active = true ∧
          strLower e.user_id = strLower ("bob".toList)) ∧
    ((addUserLicense
      ⟨[("bob".toList, ⟨"bob".toList, "Bob".toList, []⟩)],
       [⟨"ALM".toList, "Named".toList, 1, "BOB".toList, 3, true⟩],
       [], []⟩
      ⟨"bob".toList, "Bob".toList, []⟩ "QA".toList "Named".toList).1 =
        false →
      (addUserLicense
        ⟨[("bob".toList, ⟨"bob".toList, "Bob".toList, []⟩)],
         [⟨"ALM".toList, "Named".toList, 1, "BOB".toList, 3, true⟩],
         [], []⟩
        ⟨"bob".toList, "Bob".toList, []⟩ "QA".toList "Named".toList).2 =
        ⟨[("bob".toList, ⟨"bob".toList, "Bob".toList, []⟩)],
         [⟨"ALM".toList, "Named".toList, 1, "BOB".toList, 3, true⟩],
         [], []⟩) :=
  c4_add_uniqueness_amended
    ⟨[("bob".toList, ⟨"bob".toList, "Bob".toList, []⟩)],
     [⟨"ALM".toList, "Named".toList, 1, "BOB".toList, 3, true⟩], [], []⟩
    ⟨"bob".toList, "Bob".toList, []⟩ "QA".toList "Named".toList (by decide)

/-! ## Claim C2: reuse of removed slot indices -/

/-- Named/ALM entries with active indices {1,2,4} plus an index-5 entry
for `eve`, and a one-user directory for `bob` -/
def c2State : MState :=
  ⟨[("bob".toList, ⟨"bob".toList, "Bob".toList, []⟩)],
   [⟨"ALM".toList, "Named".toList, 1, "u1".toList, 0, true⟩,
    ⟨"ALM".toList, "Named".toList, 2, "u2".toList, 0, true⟩,
    ⟨"ALM".toList, "Named".toList, 4, "u4".toList, 0, true⟩,
    ⟨"ALM".toList, "Named".toList, 5, "eve".toList, 0, true⟩],
   [], []⟩

/-- C2, counterexample: after removing the index-5 Named/ALM entry, a
further add in the same partition assigns index 5 again — the removed
index IS reused (the spec's own max-over-active-plus-one rule makes the
freed top index the next to be handed out), contradicting "a subsequent
successful add assigns an index different from i" and the expected 6. -/
theorem c2_no_reuse_counterexample :
    (removeUserLicense c2State "eve".toList "ALM".toList
      "Named".toList).1 = true ∧
    (⟨"ALM".toList, "Named".toList, 5, "eve".toList, 0, false⟩ :
        LicenseEntry) ∈
      (removeUserLicense c2State "eve".toList "ALM".toList
        "Named".toList).2.license_entries ∧
    (addUserLicense
      (removeUserLicense c2State "eve".toList "ALM".toList
        "Named".toList).2
      ⟨"bob".toList, "Bob".toList, []⟩ "ALM".toList "Named".toList).1 =
      true ∧
    (addUserLicense
      (removeUserLicense c2State "eve".toList "ALM".toList
        "Named".toList).2
      ⟨"bob".toList, "Bob".toList, []⟩ "ALM".toList
      "Named".toList).2.license_entries.getLast? =
      some ⟨"ALM".toList, "Named".toList, 5, "bob".toList, 0, true⟩ := by
  refine ⟨by decide, by decide, by decide, by decide⟩

/-- C2, amended: slot indices are computed from active entries only, so a
removed entry's index is reused whenever it exceeds the maximum remaining
active index of its partition: if remove flips an entry `e` whose index
sits one above the new active maximum of its partition, the next
successful add in that partition assigns exactly `e.index` again (with
active {1,2,4} an add yields 5, and after removing the index-5 entry a
further add yields 5, not 6). -/
theorem c2_reuse_amended (st : MState) (uid lt at_ : Str) (user : User)
    (l' : List LicenseEntry) (e : LicenseEntry)
    (hrm : removeFirstMatch uid lt at_ st.license_entries = some (l', e))
    (hi : 1 ≤ e.index)
    (hmax : ∀ j ∈ activeIndicesIn l' lt at_, j ≤ e.index - 1)
    (hmem : (e.index - 1) ∈ activeIndicesIn l' lt at_)
    (hadd : (addUserLicense (removeUserLicense st uid lt at_).2 user lt
      at_).1 = true) :
    (removeUserLicense st uid lt at_).1 = true ∧
    (addUserLicense (removeUserLicense st uid lt at_).2 user lt
        at_).2.license_entries =
      (removeUserLicense st uid lt at_).2.license_entries ++
        [⟨lt, at_, e.index, user.user_id, 0, true⟩] := by
  have hst1 : (removeUserLicense st uid lt at_).2.license_entries = l' := by
    unfold removeUserLicense
    rw [hrm]
  have hfst : (removeUserLicense st uid lt at_).1 = true := by
    unfold removeUserLicense
    rw [hrm]
  refine ⟨hfst, ?_⟩
  unfold addUserLicense at hadd ⊢
  by_cases hex : ((dGet (buildCombinedUserLicenseTable
      (removeUserLicense st uid lt at_).2.users
      (removeUserLicense st uid lt at_).2.license_entries)
      (strLower user.user_id)).getD []) ≠ []
  · rw [if_pos hex] at hadd
    simp at hadd
  · rw [if_neg hex]
    have hslot : findAvailableSlot
        (removeUserLicense st uid lt at_).2.license_entries lt at_ =
        e.index := by
      rw [hst1, findAvailableSlot_eq]
      rw [if_neg (by
        intro h0
        rw [h0] at hmem
        simp at hmem)]
      rw [foldl_max_eq (activeIndicesIn l' lt at_) (e.index - 1) hmax hmem]
      omega
    rw [hslot]

/-- C2, witness: the amended reuse theorem at the {1,2,4}+5 scenario —
the removed index 5 is assigned again. -/
theorem c2_reuse_amended_witness :
    (removeUserLicense c2State "eve".toList "ALM".toList
      "Named".toList).1 = true ∧
    (addUserLicense (removeUserLicense c2State "eve".toList "ALM".toList
        "Named".toList).2 ⟨"bob".toList, "Bob".toList, []⟩ "ALM".toList
        "Named".toList).2.license_entries =
      (removeUserLicense c2State "eve".toList "ALM".toList
        "Named".toList).2.license_entries ++
        [⟨"ALM".toList, "Named".toList,
          (⟨"ALM".toList, "Named".toList, 5, "eve".toList, 0,
            true⟩ : LicenseEntry).index,
          "bob".toList, 0, true⟩] :=
  c2_reuse_amended c2State "eve".toList "ALM".toList "Named".toList
    ⟨"bob".toList, "Bob".toList, []⟩
    [⟨"ALM".toList, "Named".toList, 1, "u1".toList, 0, true⟩,
     ⟨"ALM".toList, "Named".toList, 2, "u2".toList, 0, true⟩,
     ⟨"ALM".toList, "Named".toList, 4, "u4".toList, 0, true⟩,
     ⟨"ALM".toList, "Named".toList, 5, "eve".toList, 0, false⟩]
    ⟨"ALM".toList, "Named".toList, 5, "eve".toList, 0, true⟩
    (by decide) (by decide) (by decide) (by decide) (by decide)

/-! ## Claim C10: stale-entry overwrite in the table -/

/-- active entries whose LITERAL user id is `L` -/
def activeLit (L : Str) (e : LicenseEntry) : Bool :=
  e.is_active && (e.user_id == L)

/-- running "last active entry with literal id `L`" accumulator -/
def lastUpd (L : Str) (acc : Option LicenseEntry) (e : LicenseEntry) :
    Option LicenseEntry :=
  if activeLit L e then some e else acc

theorem dGet_some_mem {κ α : Type} [BEq κ] [LawfulBEq κ]
    {d : List (κ × α)} {k : κ} {v : α} (h : dGet d k = some v) :
    (k, v) ∈ d := by
  induction d with
  | nil => simp [dGet] at h
  | cons p rest ih =>
    obtain ⟨k2, v2⟩ := p
    by_cases h2 : k2 = k
    · subst h2
      simp only [dGet, List.find?, beq_self_eq_true] at h
      simp only [Option.map_some', Option.some_inj] at h
      subst h
      simp
    · have hb : (k2 == k) = false := by simp [h2]
      simp only [dGet, List.find?, hb] at h ih
      exact List.mem_cons_of_mem _ (ih h)

theorem mem_keys_dSet {κ α : Type} [BEq κ] [LawfulBEq κ]
    (d : List (κ × α)) (k : κ) (v : α) (x : κ) :
    x ∈ (dSet d k v).map Prod.fst ↔ x ∈ d.map Prod.fst ∨ x = k := by
  induction d with
  | nil => simp [dSet]
  | cons p rest ih =>
    obtain ⟨k2, v2⟩ := p
    by_cases h2 : k2 = k
    · subst h2
      simp only [dSet, beq_self_eq_true, if_true, List.map_cons]
      constructor
      · intro h
        rcases List.mem_cons.mp h with rfl | h
        · exact Or.inr rfl
        · exact Or.inl (by simp [h])
      · intro h
        rcases h with h | rfl
        · rcases List.mem_cons.mp h with rfl | h
          · simp
          · simp [h]
        · simp
    · have hb : (k2 == k) = false := by simp [h2]
      simp only [dSet, hb, Bool.false_eq_true, if_false, List.map_cons]
      constructor
      · intro h
        rcases List.mem_cons.mp h with rfl | h
        · exact Or.inl (by simp)
        · rcases ih.mp h with h | rfl
          · exact Or.inl (by simp [h])
          · exact Or.inr rfl
      · intro h
        rcases h with h | rfl
        · rcases List.mem_cons.mp h with rfl | h
          · simp
          · exact List.mem_cons_of_mem _ (ih.mpr (Or.inl h))
        · exact List.mem_cons_of_mem _ (ih.mpr (Or.inr rfl))

theorem nodup_keys_dSet {κ α : Type} [BEq κ] [LawfulBEq κ]
    (d : List (κ × α)) (k : κ) (v : α)
    (hd : (d.map Prod.fst).Nodup) :
    ((dSet d k v).map Prod.fst).Nodup := by
  induction d with
  | nil => simp [dSet]
  | cons p rest ih =>
    obtain ⟨k2, v2⟩ := p
    simp only [List.map_cons, List.nodup_cons] at hd
    by_cases h2 : k2 = k
    · subst h2
      simp only [dSet, beq_self_eq_true, if_true, List.map_cons,
        List.nodup_cons]
      exact hd
    · have hb : (k2 == k) = false := by simp [h2]
      simp only [dSet, hb, Bool.false_eq_true, if_false, List.map_cons,
        List.nodup_cons]
      refine ⟨?_, ih hd.2⟩
      intro hmem
      rcases (mem_keys_dSet rest k v k2).mp hmem with h | h
      · exact hd.1 h
      · exact h2 h

theorem mem_dSet {κ α : Type} [BEq κ] [LawfulBEq κ]
    {d : List (κ × α)} {k : κ} {v : α} {p : κ × α}
    (hd : (d.map Prod.fst).Nodup) (hp : p ∈ dSet d k v) :
    p = (k, v) ∨ (p ∈ d ∧ p.1 ≠ k) := by
  induction d with
  | nil =>
    simp only [dSet, List.mem_singleton] at hp
    exact Or.inl hp
  | cons q rest ih =>
    obtain ⟨k2, v2⟩ := q
    simp only [List.map_cons, List.nodup_cons] at hd
    by_cases h2 : k2 = k
    · subst h2
      simp only [dSet, beq_self_eq_true, if_true] at hp
      rcases List.mem_cons.mp hp with rfl | hp
      · exact Or.inl rfl
      · refine Or.inr ⟨List.mem_cons_of_mem _ hp, ?_⟩
        intro hpk
        exact hd.1 (by rw [← hpk]; exact List.mem_map.mpr ⟨p, hp, rfl⟩)
    · have hb : (k2 == k) = false := by simp [h2]
      simp only [dSet, hb, Bool.false_eq_true, if_false] at hp
      rcases List.mem_cons.mp hp with rfl | hp
      · exact Or.inr ⟨by simp, h2⟩
      · rcases ih hd.2 hp with h | ⟨hm, hne⟩
        · exact Or.inl h
        · exact Or.inr ⟨List.mem_cons_of_mem _ hm, hne⟩

/-- the table invariant carried over the entry fold for a stale literal id
`L` with an upper-case character -/
theorem stale_fold (L : Str) (hLl : L ≠ strLower L) :
    ∀ (es : List LicenseEntry) (tbl : List (Str × List LicenseEntry))
      (last : Option LicenseEntry),
      (∀ e ∈ es, e.is_active = true → e.user_id ≠ strLower L) →
      dGet tbl (strLower L) = none →
      dGet tbl L = last.map (fun e => [e]) →
      (∀ p ∈ tbl, ∀ e ∈ p.2, activeLit L e = true →
        p.1 = L ∧ p.2 = [e] ∧ last = some e) →
      (tbl.map Prod.fst).Nodup →
      (dGet (es.foldl buildStep tbl) (strLower L) = none ∧
       dGet (es.foldl buildStep tbl) L =
        (es.foldl (lastUpd L) last).map (fun e => [e]) ∧
       (∀ p ∈ es.foldl buildStep tbl, ∀ e ∈ p.2, activeLit L e = true →
        p.1 = L ∧ p.2 = [e] ∧ es.foldl (lastUpd L) last = some e) ∧
       ((es.foldl buildStep tbl).map Prod.fst).Nodup) := by
  intro es
  induction es with
  | nil =>
    intro tbl last _ ha hc hb hd
    exact ⟨ha, hc, hb, hd⟩
  | cons e rest ih =>
    intro tbl last hno ha hc hb hd
    simp only [List.foldl_cons]
    have hnorest : ∀ x ∈ rest, x.is_active = true →
        x.user_id ≠ strLower L := fun x hx => hno x (by simp [hx])
    cases hact : e.is_active with
    | false =>
      have hstep : buildStep tbl e = tbl := by
        unfold buildStep
        rw [hact]
        rfl
      have hlast : lastUpd L last e = last := by
        unfold lastUpd activeLit
        rw [hact]
        rfl
      rw [hstep, hlast]
      exact ih tbl last hnorest ha hc hb hd
    | true =>
      by_cases hL : e.user_id = L
      · -- an active entry with literal id L: stale branch, clobbering L
        have hstep : buildStep tbl e = dSet tbl L [e] := by
          unfold buildStep
          rw [hact]
          simp only [if_true]
          rw [hL, ha]
        have hlast : lastUpd L last e = some e := by
          unfold lastUpd activeLit
          rw [hact, hL]
          simp
        rw [hstep, hlast]
        apply ih
        · exact hnorest
        · rw [dGet_dSet_ne _ _ _ _ (fun h => hLl h.symm)]
          exact ha
        · rw [dGet_dSet_self]
          rfl
        · intro p hp x hx hxa
          rcases mem_dSet hd hp with rfl | ⟨hpm, hpne⟩
          · simp only [List.mem_singleton] at hx
            subst hx
            exact ⟨rfl, rfl, rfl⟩
          · exact absurd (hb p hpm x hx hxa).1 hpne
        · exact nodup_keys_dSet tbl L [e] hd
      · -- an active entry with a different literal id
        have hxa : activeLit L e = false := by
          unfold activeLit
          rw [hact]
          simp [hL]
        have hlast : lastUpd L last e = last := by
          unfold lastUpd
          rw [hxa]
          rfl
        have huid_ne_lower : e.user_id ≠ strLower L := hno e (by simp) hact
        have hkl_ne_L : strLower e.user_id ≠ L := by
          intro h
          apply hLl
          rw [← h, strLower_idem]
        by_cases hklL : strLower e.user_id = strLower L
        · -- lower-cased id collides with lower L: the key is absent
          have hstep : buildStep tbl e = dSet tbl e.user_id [e] := by
            unfold buildStep
            rw [hact]
            simp only [if_true]
            rw [hklL, ha]
          rw [hstep, hlast]
          apply ih
          · exact hnorest
          · rw [dGet_dSet_ne _ _ _ _ (fun h => huid_ne_lower h.symm)]
            exact ha
          · rw [dGet_dSet_ne _ _ _ _ (fun h => hL h.symm)]
            exact hc
          · intro p hp x hx hxact
            rcases mem_dSet hd hp with rfl | ⟨hpm, _⟩
            · simp only [List.mem_singleton] at hx
              subst hx
              rw [hxa] at hxact
              simp at hxact
            · exact hb p hpm x hx hxact
          · exact nodup_keys_dSet tbl e.user_id [e] hd
        · cases hg : dGet tbl (strLower e.user_id) with
          | some l =>
            have hstep : buildStep tbl e =
                dSet tbl (strLower e.user_id) (l ++ [e]) := by
              unfold buildStep
              rw [hact]
              simp only [if_true]
              rw [hg]
            rw [hstep, hlast]
            apply ih
            · exact hnorest
            · rw [dGet_dSet_ne _ _ _ _ (fun h => hklL h.symm)]
              exact ha
            · rw [dGet_dSet_ne _ _ _ _ (fun h => hkl_ne_L h.symm)]
              exact hc
            · intro p hp x hx hxact
              rcases mem_dSet hd hp with rfl | ⟨hpm, _⟩
              · rcases List.mem_append.mp hx with hx | hx
                · have hlm := hb (strLower e.user_id, l)
                    (dGet_some_mem hg) x hx hxact
                  exact absurd hlm.1 hkl_ne_L
                · simp only [List.mem_singleton] at hx
                  subst hx
                  rw [hxa] at hxact
                  simp at hxact
              · exact hb p hpm x hx hxact
            · exact nodup_keys_dSet tbl (strLower e.user_id) (l ++ [e]) hd
          | none =>
            have hstep : buildStep tbl e = dSet tbl e.user_id [e] := by
              unfold buildStep
              rw [hact]
              simp only [if_true]
              rw [hg]
            rw [hstep, hlast]
            apply ih
            · exact hnorest
            · rw [dGet_dSet_ne _ _ _ _ (fun h => huid_ne_lower h.symm)]
              exact ha
            · rw [dGet_dSet_ne _ _ _ _ (fun h => hL h.symm)]
              exact hc
            · intro p hp x hx hxact
              rcases mem_dSet hd hp with rfl | ⟨hpm, _⟩
              · simp only [List.mem_singleton] at hx
                subst hx
                rw [hxa] at hxact
                simp at hxact
              · exact hb p hpm x hx hxact
            · exact nodup_keys_dSet tbl e.user_id [e] hd

theorem dGet_none_iff {κ α : Type} [BEq κ] [LawfulBEq κ]
    (d : List (κ × α)) (k : κ) :
    dGet d k = none ↔ ∀ p ∈ d, p.1 ≠ k := by
  unfold dGet
  simp [List.find?_eq_none]

def c10e1 : LicenseEntry :=
  ⟨"ALM".toList, "Named".toList, 1, "bob".toList, 0, true⟩

def c10e2 : LicenseEntry :=
  ⟨"QA".toList, "Named".toList, 2, "bob".toList, 0, true⟩

/-- C10, counterexample: with an empty directory and two active entries
whose shared literal id `bob` is all-lowercase, the first stale insertion
creates the key `bob` in the TABLE, so the second entry takes the append
branch: the table maps `bob` to BOTH entries, not to a singleton holding
only the last one, and the earlier entry does appear in a list of the
table. -/
theorem c10_stale_overwrite_counterexample :
    dGet (buildCombinedUserLicenseTable [] [c10e1, c10e2]) "bob".toList =
      some [c10e1, c10e2] ∧
    c10e1 ≠ c10e2 ∧
    ∃ p ∈ buildCombinedUserLicenseTable [] [c10e1, c10e2],
      c10e1 ∈ p.2 := by
  refine ⟨by decide, by decide, by decide⟩

/-- C10, amended: the overwrite behaviour holds when the repeated literal
id `L` differs from its own lower-casing (contains an upper-case letter)
and no active entry carries the literal id `lower(L)`: then, for a
directory with lower-case, duplicate-free keys not containing `lower(L)`,
the table maps `L` to the singleton holding only the LAST active entry
with literal id `L` in entry-list order, and every other such entry
appears in no list of the returned table — so `validate()` and `add`'s
duplicate check never see the earlier stale entries. -/
theorem c10_stale_overwrite_amended (users : List (Str × User))
    (entries : List LicenseEntry) (L : Str) (eLast : LicenseEntry)
    (hnodup : (users.map Prod.fst).Nodup)
    (hlowkeys : ∀ p ∈ users, strLower p.1 = p.1)
    (hstale : dGet users (strLower L) = none)
    (hupper : L ≠ strLower L)
    (hno : ∀ e ∈ entries, e.is_active = true → e.user_id ≠ strLower L)
    (hlast : entries.foldl (lastUpd L) none = some eLast) :
    dGet (buildCombinedUserLicenseTable users entries) L = some [eLast] ∧
    ∀ p ∈ buildCombinedUserLicenseTable users entries, ∀ e ∈ p.2,
      e.is_active = true → e.user_id = L → e = eLast := by
  unfold buildCombinedUserLicenseTable
  have h0a : dGet (users.map (fun p => (p.1, ([] : List LicenseEntry))))
      (strLower L) = none := by
    rw [dGet_map_nil, hstale]
    rfl
  have h0cL : dGet users L = none := by
    rw [dGet_none_iff]
    intro p hp hpl
    apply hupper
    rw [← hpl] at hupper ⊢
    exact (hlowkeys p hp).symm
  have h0c : dGet (users.map (fun p => (p.1, ([] : List LicenseEntry))))
      L = (none : Option LicenseEntry).map (fun e => [e]) := by
    rw [dGet_map_nil, h0cL]
    rfl
  have h0b : ∀ p ∈ users.map (fun p => (p.1, ([] : List LicenseEntry))),
      ∀ e ∈ p.2, activeLit L e = true →
        p.1 = L ∧ p.2 = [e] ∧ (none : Option LicenseEntry) = some e := by
    intro p hp e he
    obtain ⟨q, _, rfl⟩ := List.mem_map.mp hp
    simp at he
  have h0d : ((users.map (fun p => (p.1, ([] : List LicenseEntry)))).map
      Prod.fst).Nodup := by
    rw [List.map_map]
    exact hnodup
  obtain ⟨_, hC, hB, _⟩ := stale_fold L hupper entries
    (users.map (fun p => (p.1, ([] : List LicenseEntry)))) none hno h0a
    h0c h0b h0d
  constructor
  · rw [hC, hlast]
    rfl
  · intro p hp e he hact huid
    have hal : activeLit L e = true := by
      unfold activeLit
      rw [hact, huid]
      simp
    have := (hB p hp e he hal).2.2
    rw [hlast] at this
    exact (Option.some_inj.mp this).symm

/-- C10, witness: the amended overwrite theorem at two active `Bob`
entries over an empty directory — the table holds only the second. -/
theorem c10_stale_overwrite_amended_witness :
    dGet (buildCombinedUserLicenseTable []
      [⟨"ALM".toList, "Named".toList, 1, "Bob".toList, 0, true⟩,
       ⟨"QA".toList, "Named".toList, 2, "Bob".toList, 0, true⟩])
      "Bob".toList =
      some [⟨"QA".toList, "Named".toList, 2, "Bob".toList, 0, true⟩] ∧
    ∀ p ∈ buildCombinedUserLicenseTable []
      [⟨"ALM".toList, "Named".toList, 1, "Bob".toList, 0, true⟩,
       ⟨"QA".toList, "Named".toList, 2, "Bob".toList, 0, true⟩],
      ∀ e ∈ p.2, e.is_active = true → e.user_id = "Bob".toList →
        e = ⟨"QA".toList, "Named".toList, 2, "Bob".toList, 0, true⟩ :=
  c10_stale_overwrite_amended []
    [⟨"ALM".toList, "Named".toList, 1, "Bob".toList, 0, true⟩,
     ⟨"QA".toList, "Named".toList, 2, "Bob".toList, 0, true⟩]
    "Bob".toList
    ⟨"QA".toList, "Named".toList, 2, "Bob".toList, 0, true⟩
    (by decide) (by decide) (by decide) (by decide) (by decide) (by decide)

/-! ## Claim C6: switch success postcondition -/

/-- when a user's active entries reduce to the single entry `e0` and `e0`
also matches the remove triple, the remove scan finds exactly `e0`, and
everything before and after it fails the user's active-match predicate. -/
theorem removeFirstMatch_of_filter_singleton (uid lt at_ k : Str)
    (hk : k = strLower uid) (e0 : LicenseEntry) :
    ∀ (l : List LicenseEntry), l.filter (matchesKey k) = [e0] →
      removePred uid lt at_ e0 = true →
      ∃ l1 l2, l = l1 ++ e0 :: l2 ∧
        (∀ x ∈ l1, matchesKey k x = false) ∧
        (∀ x ∈ l2, matchesKey k x = false) ∧
        removeFirstMatch uid lt at_ l =
          some (l1 ++ { e0 with is_active := false } :: l2, e0) := by
  have himp : ∀ x, removePred uid lt at_ x = true → matchesKey k x = true := by
    intro x hx
    simp only [removePred, Bool.and_eq_true] at hx
    rw [matchesKey_iff]
    refine ⟨hx.2, ?_⟩
    rw [hk]
    simpa using hx.1.1.1
  intro l
  induction l with
  | nil => intro h0; simp at h0
  | cons a rest ih =>
    intro hfil hp0
    by_cases hQa : matchesKey k a = true
    · rw [List.filter_cons_of_pos hQa] at hfil
      simp only [List.cons.injEq] at hfil
      obtain ⟨rfl, hrest⟩ := hfil
      refine ⟨[], rest, by simp, by simp, ?_, ?_⟩
      · intro x hx
        have := List.filter_eq_nil_iff.mp hrest x hx
        simpa using this
      · unfold removeFirstMatch
        rw [hp0, if_pos rfl]
        simp
    · have hQa' : matchesKey k a = false := by simpa using hQa
      rw [List.filter_cons_of_neg (by simp [hQa'])] at hfil
      have hpa : removePred uid lt at_ a = false := by
        cases hpc : removePred uid lt at_ a with
        | false => rfl
        | true => exact absurd (himp a hpc) (by simp [hQa'])
      obtain ⟨l1, l2, hsp, hl1, hl2, hrm⟩ := ih hfil hp0
      refine ⟨a :: l1, l2, by simp [hsp], ?_, hl2, ?_⟩
      · intro x hx
        rcases List.mem_cons.mp hx with rfl | hx
        · exact hQa'
        · exact hl1 x hx
      · unfold removeFirstMatch
        rw [hpa]
        simp only [Bool.false_eq_true, if_false]
        rw [hrm]
        simp

/-- C6: if the user is in the directory and has exactly one active entry,
a Named/ALM one, then `switch(user, ALM, Named, QA, Concurrent)` succeeds,
afterwards the user's active entries are exactly one (Concurrent, QA)
entry, and the former Named/ALM entry is still present with
`is_active = false`. -/
theorem c6_switch_postcondition (st : MState) (user : User)
    (e0 : LicenseEntry)
    (hdir : (dGet st.users (strLower user.user_id)).isSome = true)
    (hone : st.license_entries.filter
      (matchesKey (strLower user.user_id)) = [e0])
    (hlt : e0.license_type = "ALM".toList)
    (hat : e0.assignment_type = "Named".toList) :
    (switchUserLicense st user "ALM".toList "Named".toList "QA".toList
      "Concurrent".toList).1 = true ∧
    (∃ i, ((switchUserLicense st user "ALM".toList "Named".toList
        "QA".toList "Concurrent".toList).2.license_entries).filter
        (matchesKey (strLower user.user_id)) =
      [⟨"QA".toList, "Concurrent".toList, i, user.user_id, 0, true⟩]) ∧
    { e0 with is_active := false } ∈
      (switchUserLicense st user "ALM".toList "Named".toList "QA".toList
        "Concurrent".toList).2.license_entries := by
  have he0 : matchesKey (strLower user.user_id) e0 = true := by
    have : e0 ∈ st.license_entries.filter
        (matchesKey (strLower user.user_id)) := by rw [hone]; simp
    exact (List.mem_filter.mp this).2
  have he0' := (matchesKey_iff _ e0).mp he0
  have hp0 : removePred user.user_id "ALM".toList "Named".toList e0 =
      true := by
    simp only [removePred, Bool.and_eq_true]
    refine ⟨⟨⟨?_, ?_⟩, ?_⟩, he0'.1⟩
    · simp [he0'.2]
    · simp [hlt]
    · simp [hat]
  obtain ⟨l1, l2, hsp, hl1, hl2, hrm⟩ :=
    removeFirstMatch_of_filter_singleton user.user_id "ALM".toList
      "Named".toList (strLower user.user_id) rfl e0 st.license_entries
      hone hp0
  -- the state after the remove half
  have hrem : removeUserLicense st user.user_id "ALM".toList
      "Named".toList =
      (true, { st with
        license_entries := l1 ++ { e0 with is_active := false } :: l2,
        changes := st.changes ++
          [⟨user.user_id,
            (match dGet st.users (strLower user.user_id) with
             | some u => u.full_name
             | none => user.user_id),
            "remove".toList,
            some ("Named".toList ++ ' ' :: "ALM".toList), none, none,
            some (renderLine "Named".toList "ALM".toList e0.index
              user.user_id)⟩] }) := by
    unfold removeUserLicense
    rw [hrm]
  have hfilter1 : (l1 ++ { e0 with is_active := false } :: l2).filter
      (matchesKey (strLower user.user_id)) = [] := by
    rw [List.filter_append]
    rw [List.filter_eq_nil_iff.mpr (fun x hx => by simp [hl1 x hx])]
    rw [List.filter_cons_of_neg (by simp [matchesKey])]
    rw [List.filter_eq_nil_iff.mpr (fun x hx => by simp [hl2 x hx])]
    rfl
  have htbl := dGet_buildTable st.users
    (l1 ++ { e0 with is_active := false } :: l2) (strLower user.user_id)
    (strLower_idem user.user_id) hdir
  rw [hfilter1] at htbl
  -- the add half succeeds and appends the new Concurrent/QA entry
  have hadd : addUserLicense
      { st with
        license_entries := l1 ++ { e0 with is_active := false } :: l2,
        changes := st.changes ++
          [⟨user.user_id,
            (match dGet st.users (strLower user.user_id) with
             | some u => u.full_name
             | none => user.user_id),
            "remove".toList,
            some ("Named".toList ++ ' ' :: "ALM".toList), none, none,
            some (renderLine "Named".toList "ALM".toList e0.index
              user.user_id)⟩] }
      user "QA".toList "Concurrent".toList =
      (true, { st with
        license_entries := (l1 ++ { e0 with is_active := false } :: l2) ++
          [⟨"QA".toList, "Concurrent".toList,
            findAvailableSlot (l1 ++ { e0 with is_active := false } :: l2)
              "QA".toList "Concurrent".toList, user.user_id, 0, true⟩],
        changes := (st.changes ++
          [⟨user.user_id,
            (match dGet st.users (strLower user.user_id) with
             | some u => u.full_name
             | none => user.user_id),
            "remove".toList,
            some ("Named".toList ++ ' ' :: "ALM".toList), none, none,
            some (renderLine "Named".toList "ALM".toList e0.index
              user.user_id)⟩]) ++
          [⟨user.user_id, user.full_name, "add".toList, none,
            some ("Concurrent".toList ++ ' ' :: "QA".toList),
            some (renderLine "Concurrent".toList "QA".toList
              (findAvailableSlot
                (l1 ++ { e0 with is_active := false } :: l2)
                "QA".toList "Concurrent".toList) user.user_id),
            none⟩] }) := by
    simp only [addUserLicense, htbl, Option.getD_some]
    rw [if_neg (by simp)]
  simp only [switchUserLicense, hrem, hadd]
  rw [if_neg (by simp)]
  refine ⟨rfl, ?_, ?_⟩
  · refine ⟨findAvailableSlot (l1 ++ { e0 with is_active := false } :: l2)
      "QA".toList "Concurrent".toList, ?_⟩
    simp only
    rw [List.filter_append, hfilter1]
    rw [List.filter_cons_of_pos (by
      rw [matchesKey_iff]
      exact ⟨rfl, rfl⟩)]
    rfl
  · simp only
    refine List.mem_append.mpr (Or.inl ?_)
    exact List.mem_append.mpr (Or.inr (by simp))

/-- C6, witness: the switch theorem at the concrete one-entry state. -/
theorem c6_switch_postcondition_witness :
    (switchUserLicense
      ⟨[("bshrager".toList,
        ⟨"bshrager".toList, "Bob Shrager".toList, []⟩)],
       [⟨"ALM".toList, "Named".toList, 1, "bshrager".toList, 3, true⟩],
       [], []⟩
      ⟨"bshrager".toList, "Bob Shrager".toList, []⟩
      "ALM".toList "Named".toList "QA".toList "Concurrent".toList).1 =
      true ∧
    (∃ i, ((switchUserLicense
        ⟨[("bshrager".toList,
          ⟨"bshrager".toList, "Bob Shrager".toList, []⟩)],
         [⟨"ALM".toList, "Named".toList, 1, "bshrager".toList, 3, true⟩],
         [], []⟩
        ⟨"bshrager".toList, "Bob Shrager".toList, []⟩
        "ALM".toList "Named".toList "QA".toList
        "Concurrent".toList).2.license_entries).filter
        (matchesKey (strLower "bshrager".toList)) =
      [⟨"QA".toList, "Concurrent".toList, i, "bshrager".toList, 0,
        true⟩]) ∧
    ({ (⟨"ALM".toList, "Named".toList, 1, "bshrager".toList, 3, true⟩ :
        LicenseEntry) with is_active := false }) ∈
      (switchUserLicense
        ⟨[("bshrager".toList,
          ⟨"bshrager".toList, "Bob Shrager".toList, []⟩)],
         [⟨"ALM".toList, "Named".toList, 1, "bshrager".toList, 3, true⟩],
         [], []⟩
        ⟨"bshrager".toList, "Bob Shrager".toList, []⟩
        "ALM".toList "Named".toList "QA".toList
        "Concurrent".toList).2.license_entries :=
  c6_switch_postcondition
    ⟨[("bshrager".toList, ⟨"bshrager".toList, "Bob Shrager".toList, []⟩)],
     [⟨"ALM".toList, "Named".toList, 1, "bshrager".toList, 3, true⟩],
     [], []⟩
    ⟨"bshrager".toList, "Bob Shrager".toList, []⟩
    ⟨"ALM".toList, "Named".toList, 1, "bshrager".toList, 3, true⟩
    (by decide) (by decide) rfl rfl

/-! ## Claim C5: prefix versus ambient context in the parser -/

/-- the assignment type the parser actually derives from a key prefix:
`concurrent…` ⇒ Concurrent, `named…` ⇒ Named, anything else defaults to
Concurrent — never the ambient subsection context. -/
def modeOfPfx (pfx : Str) : Str :=
  if "concurrent".toList.isPrefixOf (strLower pfx) then "Concurrent".toList
  else if "named".toList.isPrefixOf (strLower pfx) then "Named".toList
  else "Concurrent".toList

/-- the comment-stripping the parser applies before the regex -/
def stripComment (l : Str) : Str :=
  if ['#'].isPrefixOf l then strip (l.drop 1) else l

theorem classifyAssign_mode (st : ParseState) (n : Nat) (pfx : Str)
    (idx : Nat) (v : Str) (act : Bool) :
    ∀ e ∈ (classifyAssign st n pfx idx v act).entries,
      e ∈ st.entries ∨ e.assignment_type = modeOfPfx pfx := by
  unfold classifyAssign modeOfPfx
  by_cases h0 : strip v = []
  · rw [if_pos h0]
    intro e he
    exact Or.inl he
  · rw [if_neg h0]
    intro e he
    simp only at he
    split at he
    · rcases List.mem_append.mp he with he | he
      · exact Or.inl he
      · simp only [List.mem_singleton] at he
        subst he
        exact Or.inr rfl
    · exact Or.inl he

/-- C5, amended: the parser derives the assignment mode from the key
prefix alone — `concurrent…` ⇒ Concurrent, `named…` ⇒ Named, and any
other prefix defaults to Concurrent; the ambient `NAMED USERS` /
`CONCURRENT USERS` context is never consulted for the mode (the source's
context fallback for the mode is dead code), only the category falls back
to context.  Formally: any entry a parsed line adds carries
`modeOfPfx` of its matched prefix. -/
theorem c5_prefix_mode_amended (st : ParseState) (n : Nat) (rawLine : Str) :
    ∀ e ∈ (parseLine st n rawLine).entries,
      e ∈ st.entries ∨
        ∃ pfx idx v,
          matchAssign (stripComment (strip rawLine)) = some (pfx, idx, v) ∧
          e.assignment_type = modeOfPfx pfx := by
  unfold parseLine
  by_cases h1 : strip rawLine = []
  · rw [if_pos h1]
    exact fun e he => Or.inl he
  · rw [if_neg h1]
    by_cases h2 : sectionHeaderMarker.isPrefixOf (strip rawLine) = true
    · simp only [h2, if_true]
      exact fun e he => Or.inl he
    · simp only [h2, Bool.false_eq_true, if_false]
      by_cases h3 : namedHeader.isPrefixOf (strip rawLine) = true
      · simp only [h3, if_true]
        exact fun e he => Or.inl he
      · simp only [h3, Bool.false_eq_true, if_false]
        by_cases h4 : concurrentHeader.isPrefixOf (strip rawLine) = true
        · simp only [h4, if_true]
          exact fun e he => Or.inl he
        · simp only [h4, Bool.false_eq_true, if_false]
          by_cases h5 : (strip rawLine).contains '=' = true
          · simp only [h5, if_true]
            have hline2 :
                (if (! ['#'].isPrefixOf (strip rawLine)) = true
                 then strip rawLine
                 else strip ((strip rawLine).drop 1)) =
                stripComment (strip rawLine) := by
              unfold stripComment
              cases hp : ['#'].isPrefixOf (strip rawLine) <;> simp [hp]
            rw [hline2]
            cases hma : matchAssign (stripComment (strip rawLine)) with
            | none => exact fun e he => Or.inl he
            | some t =>
              obtain ⟨pfx, idx, v⟩ := t
              intro e he
              rcases classifyAssign_mode st n pfx idx v _ e he with h | h
              · exact Or.inl h
              · exact Or.inr ⟨pfx, idx, v, rfl, h⟩
          · simp only [h5, Bool.false_eq_true, if_false]
            exact fun e he => Or.inl he

/-- C5, witness: the amended theorem applied to the line `almUser1=bob`
(whose prefix starts with neither `named` nor `concurrent`) under a
NAMED USERS context: the produced entry's mode is `modeOfPfx "almUser" =
Concurrent`, not the ambient Named. -/
theorem c5_prefix_mode_amended_witness :
    (⟨"ALM".toList, "Concurrent".toList, 1, "bob".toList, 1, true⟩ :
        LicenseEntry) ∈
      (parseLine ⟨some "ALM".toList, some "Named".toList, none, []⟩ 1
        "almUser1=bob".toList).entries ∧
    ((⟨"ALM".toList, "Concurrent".toList, 1, "bob".toList, 1, true⟩ :
        LicenseEntry) ∈
        (⟨some "ALM".toList, some "Named".toList, none, []⟩ :
          ParseState).entries ∨
      ∃ pfx idx v,
        matchAssign (stripComment (strip "almUser1=bob".toList)) =
          some (pfx, idx, v) ∧
        ("Concurrent".toList : Str) = modeOfPfx pfx) :=
  ⟨by decide,
   c5_prefix_mode_amended ⟨some "ALM".toList, some "Named".toList, none, []⟩
     1 "almUser1=bob".toList
     ⟨"ALM".toList, "Concurrent".toList, 1, "bob".toList, 1, true⟩
     (by decide)⟩

/-- a NAMED USERS subsection containing a line whose prefix `almUser`
starts with neither `named` nor `concurrent` -/
def cexC5Text : Str :=
  ("# ------------------------------- POLARION ALM " ++
   "-------------------------------\n# NAMED USERS:\nalmUser1=bob").toList

/-- C5, counterexample: under a NAMED USERS subheader, the line
`almUser1=bob` is parsed with assignment type Concurrent (the hard-coded
default), not the ambient context's Named as the claim states. -/
theorem c5_prefix_mode_counterexample :
    parseLicenseConfiguration cexC5Text =
      [⟨"ALM".toList, "Concurrent".toList, 1, "bob".toList, 3, true⟩] ∧
    ¬ ∃ e ∈ parseLicenseConfiguration cexC5Text,
        e.assignment_type = "Named".toList := by
  constructor
  · decide
  · decide

/-! ## Claim C8: query end-to-end and status range -/

def c8Directory : List (Str × User) :=
  [("bshrager".toList,
    ⟨"bshrager".toList, "Bob Shrager".toList,
     "bob.shrager@company.com".toList⟩)]

def c8Config : Str :=
  ("# ------------------------------- POLARION ALM " ++
   "-------------------------------\n# NAMED USERS:\n" ++
   "namedALMUser1=bshrager").toList

/-- C8: (i) for the concrete configuration text with one Named/ALM line
for `bshrager` and a directory containing `bshrager`,
`query_user_licenses(["bshrager"])` returns one result with status
`has_license` and rendered license list `["namedALMUser1=bshrager"]`;
(ii) for every input, each returned status is one of `not_found`,
`no_license`, `has_license`, `no_active_license`. -/
theorem c8_query_end_to_end :
    (queryUserLicenses c8Directory (parseLicenseConfiguration c8Config)
      ["bshrager".toList] =
      [⟨"bshrager".toList, "has_license".toList,
        ["namedALMUser1=bshrager".toList]⟩]) ∧
    (∀ (users : List (Str × User)) (entries : List LicenseEntry)
      (ids : List Str) (r : QueryResult),
      r ∈ queryUserLicenses users entries ids →
        r.status = "not_found".toList ∨ r.status = "no_license".toList ∨
        r.status = "has_license".toList ∨
        r.status = "no_active_license".toList) := by
  constructor
  · decide
  · intro users entries ids r hr
    unfold queryUserLicenses at hr
    obtain ⟨idf, _, rfl⟩ := List.mem_map.mp hr
    cases hf : findUserByIdentifier users idf with
    | none => simp [hf]
    | some u =>
      simp only [hf]
      by_cases he : ((dGet (buildCombinedUserLicenseTable users entries)
          (strLower u.user_id)).getD []).isEmpty = true
      · simp [he]
      · simp only [he, Bool.false_eq_true, if_false]
        by_cases hi : (((dGet (buildCombinedUserLicenseTable users entries)
            (strLower u.user_id)).getD []).filter
            (fun e => e.is_active)).map
            (fun e => renderLine e.assignment_type e.license_type e.index
              e.user_id) = []
        · simp [hi]
        · simp [hi]

/-! ## Claim C9: duplicates in the identifier classifier -/

theorem alnum_ne {c d : Char} (h : isAlphaNumChar c = true)
    (hd : ¬((97 ≤ d.toNat ∧ d.toNat ≤ 122) ∨ (65 ≤ d.toNat ∧ d.toNat ≤ 90) ∨
      (48 ≤ d.toNat ∧ d.toNat ≤ 57))) : c ≠ d := by
  have := alnum_toNat h
  intro he
  rw [char_eq_iff] at he
  omega

theorem contains_eq_false {l : Str} {c : Char} (h : ∀ x ∈ l, x ≠ c) :
    l.contains c = false := by
  induction l with
  | nil => rfl
  | cons a t ih =>
    simp only [List.contains, List.elem]
    cases hca : (c == a) with
    | true =>
      have : c = a := by simpa using hca
      exact absurd this.symm (h a (by simp))
    | false =>
      simpa [List.contains] using ih (fun x hx => h x (by simp [hx]))

theorem strip_space_cons {t : Str} (ht : t ≠ [])
    (hta : ∀ x ∈ t, isAlphaNumChar x = true) : strip (' ' :: t) = t := by
  unfold strip lstripWs
  rw [List.reverse_cons]
  cases hrev : t.reverse with
  | nil => exact absurd (by simpa using congrArg List.reverse hrev) ht
  | cons a s =>
    have ha : isSpaceChar a = false := by
      have ham : a ∈ t := by
        have h2 : a ∈ t.reverse := by rw [hrev]; simp
        simpa using h2
      exact not_space_of_word (word_of_alnum (hta a ham))
    rw [List.cons_append, List.dropWhile_cons, ha]
    simp only [Bool.false_eq_true, if_false]
    rw [show ((a :: (s ++ [' '])).reverse) = ' ' :: (a :: s).reverse by
      simp]
    rw [List.dropWhile_cons]
    simp only [show isSpaceChar ' ' = true from rfl, if_true]
    rw [← hrev, List.reverse_reverse]
    cases htc : t with
    | nil => exact absurd htc ht
    | cons b tb =>
      rw [List.dropWhile_cons,
        not_space_of_word (word_of_alnum (hta b (by rw [htc]; simp)))]
      simp

/-- a non-empty alphanumeric token is classified as a user id -/
theorem mixedStep_userid (acc : MixedIds) (t : Str) (ht : t ≠ [])
    (hta : ∀ x ∈ t, isAlphaNumChar x = true) :
    mixedStep acc t = { acc with user_ids := acc.user_ids ++ [t] } := by
  have hsp : t.contains ' ' = false :=
    contains_eq_false (fun x hx => alnum_ne (hta x hx) (by decide))
  have hat : t.contains '@' = false :=
    contains_eq_false (fun x hx => alnum_ne (hta x hx) (by decide))
  have hfl : t.filter (fun c => c ≠ '.' && c ≠ '_' && c ≠ '-') = t := by
    rw [List.filter_eq_self]
    intro x hx
    have h1 : x ≠ '.' := alnum_ne (hta x hx) (by decide)
    have h2 : x ≠ '_' := alnum_ne (hta x hx) (by decide)
    have h3 : x ≠ '-' := alnum_ne (hta x hx) (by decide)
    simp [h1, h2, h3]
  unfold mixedStep
  rw [hsp, hat, hfl]
  rw [if_neg (by simp)]
  rw [if_neg (by simp)]
  rw [if_pos (by
    simp only [Bool.not_false, Bool.true_and, Bool.and_eq_true,
      Bool.not_eq_true']
    refine ⟨by simpa using ht, ?_⟩
    simp only [List.all_eq_true]
    exact hta)]

/-- shared helper: the classifier output for a duplicated clean token -/
theorem parseMixed_dup (t : Str) (ht : t ≠ [])
    (hta : ∀ x ∈ t, isAlphaNumChar x = true) :
    parseMixedIdentifiers (t ++ ", ".toList ++ t) =
      ⟨[t, t], [], []⟩ := by
  unfold parseMixedIdentifiers
  have hmap : (t ++ ", ".toList ++ t).map
      (fun c => if c = ';' then ',' else c) = t ++ ", ".toList ++ t := by
    have h2 : (t ++ ", ".toList ++ t).map
        (fun c => if c = ';' then ',' else c) =
        (t ++ ", ".toList ++ t).map id := by
      apply List.map_congr_left
      intro x hx
      have hx' : x ≠ ';' := by
        rcases List.mem_append.mp hx with hx | hx
        · rcases List.mem_append.mp hx with hx | hx
          · exact alnum_ne (hta x hx) (by decide)
          · fin_cases hx <;> decide
        · exact alnum_ne (hta x hx) (by decide)
      simp [hx']
    simpa using h2
  rw [hmap]
  have hsplit : splitOnChar ',' (t ++ ", ".toList ++ t) =
      [t, ' ' :: t] := by
    rw [show t ++ ", ".toList ++ t = t ++ ',' :: (' ' :: t) by simp]
    rw [splitOnChar_append_sep
      (fun x hx => alnum_ne (hta x hx) (by decide))]
    rw [splitOnChar_no_sep (by
      intro x hx
      rcases List.mem_cons.mp hx with rfl | hx
      · decide
      · exact alnum_ne (hta x hx) (by decide))]
  rw [hsplit]
  have hstript : strip t = t :=
    strip_eq_self (fun x hx => not_space_of_word (word_of_alnum (hta x hx)))
  simp only [List.map_cons, List.map_nil, hstript, strip_space_cons ht hta]
  rw [show ([t, t].filter (fun x => x ≠ [])) = [t, t] by
    rw [List.filter_eq_self]
    intro x hx
    rcases List.mem_cons.mp hx with rfl | hx
    · simpa using ht
    · simp only [List.mem_singleton] at hx
      subst hx
      simpa using ht]
  simp only [List.foldl_cons, List.foldl_nil]
  rw [mixedStep_userid ⟨[], [], []⟩ t ht hta,
    mixedStep_userid _ t ht hta]
  rfl

/-- C9, counterexample: `parse_mixed_identifiers` performs no
deduplication: the input `"dins, dins"` yields a `user_ids` list with the
token `dins` twice, two tokens with the same normalized identity. -/
theorem c9_dedup_counterexample :
    (parseMixedIdentifiers "dins, dins".toList).user_ids =
      ["dins".toList, "dins".toList] ∧
    ¬ List.Pairwise (fun a b => strLower a ≠ strLower b)
      (parseMixedIdentifiers "dins, dins".toList).user_ids := by
  constructor
  · decide
  · decide

/-- C9, amended: `parse_mixed_identifiers` classifies each
comma/semicolon-separated token independently and preserves duplicates —
a repeated clean (non-empty, alphanumeric) token appears once per
occurrence in `user_ids` (so `"dins, dins"` yields `["dins","dins"]`);
deduplication by exact identifier string happens only downstream in
`find_users_by_mixed_identifiers`, which resolves such an input to the
directory user at most once. -/
theorem c9_dedup_amended (t : Str) (ht : t ≠ [])
    (hta : ∀ x ∈ t, isAlphaNumChar x = true)
    (users : List (Str × User)) :
    parseMixedIdentifiers (t ++ ", ".toList ++ t) = ⟨[t, t], [], []⟩ ∧
    findUsersByMixedIdentifiers users (t ++ ", ".toList ++ t) =
      (match findUserByIdentifier users t with
       | some u => [u]
       | none => []) := by
  refine ⟨parseMixed_dup t ht hta, ?_⟩
  unfold findUsersByMixedIdentifiers
  rw [parseMixed_dup t ht hta]
  simp only [List.foldl_cons, List.foldl_nil]
  unfold resolveStep
  cases hf : findUserByIdentifier users t with
  | none => simp [hf]
  | some u => simp [hf]

/-- C9, witness: the amended theorem at `t = "dins"` with a directory
containing `dins`. -/
theorem c9_dedup_amended_witness :
    parseMixedIdentifiers ("dins".toList ++ ", ".toList ++ "dins".toList) =
      ⟨["dins".toList, "dins".toList], [], []⟩ ∧
    findUsersByMixedIdentifiers
      [("dins".toList,
        ⟨"dins".toList, "D Ins".toList, "d@co.com".toList⟩)]
      ("dins".toList ++ ", ".toList ++ "dins".toList) =
      (match findUserByIdentifier
          [("dins".toList,
            ⟨"dins".toList, "D Ins".toList, "d@co.com".toList⟩)]
          "dins".toList with
       | some u => [u]
       | none => []) :=
  c9_dedup_amended "dins".toList (by decide) (by decide)
    [("dins".toList, ⟨"dins".toList, "D Ins".toList, "d@co.com".toList⟩)]

/-- C8, witness: part (ii) applied to the concrete scenario of part (i). -/
theorem c8_query_end_to_end_witness :
    (⟨"bshrager".toList, "has_license".toList,
      ["namedALMUser1=bshrager".toList]⟩ : QueryResult).status =
        "not_found".toList ∨
    (⟨"bshrager".toList, "has_license".toList,
      ["namedALMUser1=bshrager".toList]⟩ : QueryResult).status =
        "no_license".toList ∨
    (⟨"bshrager".toList, "has_license".toList,
      ["namedALMUser1=bshrager".toList]⟩ : QueryResult).status =
        "has_license".toList ∨
    (⟨"bshrager".toList, "has_license".toList,
      ["namedALMUser1=bshrager".toList]⟩ : QueryResult).status =
        "no_active_license".toList :=
  (c8_query_end_to_end).2 c8Directory
    (parseLicenseConfiguration c8Config) ["bshrager".toList]
    ⟨"bshrager".toList, "has_license".toList,
      ["namedALMUser1=bshrager".toList]⟩
    (by rw [(c8_query_end_to_end).1]; simp)

end Polarion
